import Mathlib

/-!
Verification of the llms-sitemap-generator core against its implementation.

This file shallowly embeds the Python source of the repository
(src/llms_sitemap_generator/{url_utils,sitemap,crawler,filters,generator}.py)
into Lean and proves / refutes the frozen specification claims about it.

URL parsing in the source goes through the CPython standard library
(urllib.parse).  The embedding below models the relevant functions of
CPython 3.11 urllib.parse (urlsplit, urlparse, urlunsplit, urlunparse)
at the character-list level, restricted to ASCII input strings:
the only behaviour that differs on non-ASCII input is the NFKC netloc check
in _checknetloc, which provably returns immediately for ASCII netlocs
(its first line is: if not netloc or netloc.isascii(): return), and
Python str.lower / str.strip, which agree with the ASCII definitions used
here on ASCII data.  Theorems that quantify over arbitrary strings carry an
explicit ASCII hypothesis where this matters.

One error path of urlsplit is modelled only partially: of the two bracket
checks that CPython 3.11 runs on the netloc, the unmatched-bracket
ValueError ("Invalid IPv6 URL") is embedded, while the subsequent
_check_bracketed_host validation (the text between [ and ] must be a valid
IPv6 or IPvFuture address, else ValueError) is not; the model therefore
parses a superset of the inputs the source parses, and agrees with the
source exactly on every URL whose netloc contains no square bracket.
Consequently the totality theorem below (claim C9) carries a bracket-free
hypothesis, under which the omitted check is unreachable in the source,
and conditional theorems of the form "if the parse returns ok then ..."
(claim C10) remain vacuously true of the source on the inputs where the
source raises but the model does not.

Network fetches and HTML link extraction are modelled as finite "world"
oracles mapping URLs to responses, so that the control flow of the source
(retry protocol, visited sets, budgets, exception propagation) is embedded
exactly while the transport itself stays abstract.
-/

namespace LlmsGen

/-- ASCII whitespace characters stripped by Python str.strip():
\t \n \v \f \r \x1c \x1d \x1e \x1f and space (those below 0x80). -/
def isPySpace (c : Char) : Bool :=
  c = ' ' || c = '\t' || c = '\n' || c = '\x0b' || c = '\x0c' || c = '\r' ||
  c = '\x1c' || c = '\x1d' || c = '\x1e' || c = '\x1f'

/-- Python str.strip() on a character list (ASCII whitespace). -/
def pyStrip (l : List Char) : List Char :=
  ((l.dropWhile isPySpace).reverse.dropWhile isPySpace).reverse

/-- Characters valid in scheme names (urllib.parse.scheme_chars). -/
def isSchemeChar (c : Char) : Bool :=
  c.isAlpha || c.isDigit || c = '+' || c = '-' || c = '.'

/-- ASCII lower-casing, the restriction of Python str.lower() to ASCII. -/
def pyLower (l : List Char) : List Char := l.map Char.toLower

/-- Split a list at the first character satisfying p: returns the part
before and the part after that character (the character is dropped),
or none when no character satisfies p.  Models s.split(c, 1) / s.find(c). -/
def splitFirst (p : Char → Bool) : List Char → Option (List Char × List Char)
  | [] => none
  | c :: cs =>
    if p c then some ([], cs)
    else (splitFirst p cs).map (fun ab => (c :: ab.1, ab.2))

/-- urllib.parse._UNSAFE_URL_BYTES_TO_REMOVE removal: WHATWG unsafe bytes. -/
def removeUnsafeBytes (l : List Char) : List Char :=
  l.filter (fun c => !(c = '\t' || c = '\r' || c = '\n'))

/-- The scheme detection of CPython 3.11 urlsplit:
i = url.find(':'); if i > 0 and url[0] is an ASCII letter and every char of
url[:i] is a scheme char, the scheme is url[:i].lower() and the rest follows
the colon; otherwise there is no scheme and the url is unchanged. -/
def splitScheme (url : List Char) : List Char × List Char :=
  match splitFirst (fun c => c = ':') url with
  | none => ([], url)
  | some (before, after) =>
    match before with
    | [] => ([], url)
    | c0 :: _ =>
      if c0.isAlpha && before.all isSchemeChar then (pyLower before, after)
      else ([], url)

/-- urllib.parse._splitnetloc: the netloc extends to the first of
the delimiters slash, question mark, hash. -/
def isNetlocDelim (c : Char) : Bool := c = '/' || c = '?' || c = '#'

/-- Result of urlsplit: the five components. -/
structure SplitParts where
  scheme : List Char
  netloc : List Char
  path : List Char
  query : List Char
  fragment : List Char
deriving Repr, DecidableEq

/-- CPython 3.11 urlsplit on a character list.  Models the ValueError
(as Except.error) raised when the netloc contains an unmatched square
bracket ("Invalid IPv6 URL").  CPython 3.11 additionally validates a
balanced-bracket netloc via _check_bracketed_host (the bracketed text must
be a valid IPv6 or IPvFuture address, else ValueError); that check is not
modelled, so this function succeeds on a superset of the source's inputs
and agrees with the source exactly when the netloc contains no square
bracket (see the file header; theorems asserting parse success carry a
bracket-free hypothesis).  The NFKC check of _checknetloc is a no-op on
ASCII netlocs and is modelled as a no-op (see file header). -/
def pyUrlsplit (url0 : List Char) : Except Unit SplitParts := do
  let url1 := removeUnsafeBytes url0
  let (scheme, url2) := splitScheme url1
  let (netloc, url3) :=
    if url2.take 2 = ['/', '/'] then
      let nl := (url2.drop 2).takeWhile (fun c => !isNetlocDelim c)
      (nl, (url2.drop 2).dropWhile (fun c => !isNetlocDelim c))
    else ([], url2)
  if (netloc.contains '[' && !netloc.contains ']') ||
     (netloc.contains ']' && !netloc.contains '[') then
    Except.error ()
  else
    let (url4, fragment) :=
      match splitFirst (fun c => c = '#') url3 with
      | some (a, b) => (a, b)
      | none => (url3, [])
    let (url5, query) :=
      match splitFirst (fun c => c = '?') url4 with
      | some (a, b) => (a, b)
      | none => (url4, [])
    Except.ok ⟨scheme, netloc, url5, query, fragment⟩

/-- urllib.parse.uses_params, as character lists. -/
def usesParams : List (List Char) :=
  [[], "ftp".data, "hdl".data, "prospero".data, "http".data, "imap".data,
   "https".data, "shttp".data, "rtsp".data, "rtspu".data, "sip".data,
   "sips".data, "mms".data, "sftp".data, "tel".data]

/-- urllib.parse.uses_netloc, as character lists. -/
def usesNetloc : List (List Char) :=
  [[], "ftp".data, "http".data, "gopher".data, "nntp".data, "telnet".data,
   "imap".data, "wais".data, "file".data, "mms".data, "https".data,
   "shttp".data, "snews".data, "prospero".data, "rtsp".data, "rtspu".data,
   "rsync".data, "svn".data, "svn+ssh".data, "sftp".data, "nfs".data,
   "git".data, "git+ssh".data, "ws".data, "wss".data]

/-- Split a list at the last character satisfying p (the character is
dropped); none when absent.  Models s.rfind(c). -/
def splitLast (p : Char → Bool) (l : List Char) : Option (List Char × List Char) :=
  match splitFirst p l.reverse with
  | none => none
  | some (ra, rb) => some (rb.reverse, ra.reverse)

/-- urllib.parse._splitparams: when the url contains a slash, the params
start at the first semicolon at or after the last slash (none found means
no params); otherwise at the first semicolon. -/
def splitparams (url : List Char) : List Char × List Char :=
  if url.contains '/' then
    match splitLast (fun c => c = '/') url with
    | none => (url, [])
    | some (pre, suf) =>
      match splitFirst (fun c => c = ';') suf with
      | none => (url, [])
      | some (a, b) => (pre ++ '/' :: a, b)
  else
    match splitFirst (fun c => c = ';') url with
    | none => (url, [])
    | some (a, b) => (a, b)

/-- Result of urlparse: the six components. -/
structure ParseParts where
  scheme : List Char
  netloc : List Char
  path : List Char
  params : List Char
  query : List Char
  fragment : List Char
deriving Repr, DecidableEq

/-- CPython 3.11 urlparse: urlsplit plus params extraction when the scheme
uses params and the path contains a semicolon. -/
def pyUrlparse (url : List Char) : Except Unit ParseParts := do
  let s ← pyUrlsplit url
  if usesParams.contains s.scheme && s.path.contains ';' then
    let (p, pr) := splitparams s.path
    return ⟨s.scheme, s.netloc, p, pr, s.query, s.fragment⟩
  else
    return ⟨s.scheme, s.netloc, s.path, [], s.query, s.fragment⟩

/-- CPython 3.11 urlunsplit on character lists. -/
def pyUrlunsplit (scheme netloc url query fragment : List Char) : List Char :=
  let url :=
    if netloc ≠ [] ∨ (scheme ≠ [] ∧ usesNetloc.contains scheme ∧ url.take 2 ≠ ['/', '/']) then
      let url := if url ≠ [] ∧ url.take 1 ≠ ['/'] then '/' :: url else url
      '/' :: '/' :: (netloc ++ url)
    else url
  let url := if scheme ≠ [] then scheme ++ ':' :: url else url
  let url := if query ≠ [] then url ++ '?' :: query else url
  let url := if fragment ≠ [] then url ++ '#' :: fragment else url
  url

/-- CPython urlunparse: re-attach params with a semicolon, then urlunsplit. -/
def pyUrlunparse (p : ParseParts) : List Char :=
  let url := if p.params ≠ [] then p.path ++ ';' :: p.params else p.path
  pyUrlunsplit p.scheme p.netloc url p.query p.fragment

/-- Strip all trailing slashes (Python path.rstrip("/")). -/
def rstripSlashes (l : List Char) : List Char :=
  (l.reverse.dropWhile (fun c => c = '/')).reverse

/-- The normalized components computed by normalize_url from parsed parts
(url_utils.py lines 59-67). -/
def normalizeParts (preferHttps dropFragment stripSlash : Bool) (p : ParseParts) :
    ParseParts :=
  let scheme := if p.scheme = [] then "https".data else p.scheme
  let scheme :=
    if preferHttps ∧ (scheme = "http".data ∨ scheme = "https".data) then "https".data
    else scheme
  let netloc := pyLower p.netloc
  let path := if p.path = [] then ['/'] else p.path
  let path :=
    if stripSlash ∧ path ≠ ['/'] ∧ path.getLast? = some '/' then rstripSlashes path
    else path
  let fragment := if dropFragment then [] else p.fragment
  ⟨scheme, netloc, path, p.params, p.query, fragment⟩

/-- url_utils.normalize_url on character lists: parse the stripped input,
normalize the components, rebuild.  Propagates the ValueError of urlparse. -/
def normalizeUrlList (preferHttps dropFragment stripSlash : Bool) (url : List Char) :
    Except Unit (List Char) := do
  let parsed ← pyUrlparse (pyStrip url)
  return pyUrlunparse (normalizeParts preferHttps dropFragment stripSlash parsed)

/-- url_utils.normalize_url on strings (keyword defaults of the source:
prefer_https, drop_fragment, strip_trailing_slash all true). -/
def normalize_url (url : String) (preferHttps : Bool := true)
    (dropFragment : Bool := true) (stripSlash : Bool := true) :
    Except Unit String :=
  (normalizeUrlList preferHttps dropFragment stripSlash url.data).map
    (fun l => String.mk l)

/-! ## Sitemap Reader (sitemap.py)

The network and the XML parser are modelled by a finite world: an
association list from sitemap URL to the list of loc strings that
_parse_sitemap_xml extracts from the fetched document.  A URL missing from
the world stands for a fetch failure (_fetch_xml raising: non-2xx status,
timeout or transport error).  Malformed XML is indistinguishable from an
empty document because _parse_sitemap_xml catches parse errors and returns
an empty list; both are the entry [] in the world. -/

/-- Python str.endswith on strings, computed on the character lists (the
built-in String.endsWith is not kernel-reducible). -/
def pyEndsWith (s suffix : String) : Bool :=
  List.isSuffixOf suffix.data s.data

/-- World oracle for sitemap fetching and parsing. -/
def SitemapWorld := List (String × List String)

/-- Fetch a sitemap document and parse it: some locs when the fetch
succeeds, none when _fetch_xml raises. -/
def fetchParse (w : SitemapWorld) (url : String) : Option (List String) :=
  (List.find? (fun e => e.1 = url) w).map (fun e => e.2)

/-- Keys of the sitemap world (the fetchable URLs). -/
def sitemapKeys (w : SitemapWorld) : List String := w.map Prod.fst

/-- Termination measure: how many fetchable sitemap URLs are not yet in
the visited set. -/
def unseenCount (w : SitemapWorld) (seen : List String) : Nat :=
  ((sitemapKeys w).toFinset \ seen.toFinset).card

mutual

/-- sitemap._expand_sitemap_index.  The Python function mutates the shared
seen set; here the call returns, next to the collected URLs, the list of
URLs it added to the seen set (the delta), and callers thread
seen ++ delta.  The fetch (_fetch_xml) is NOT guarded by try/except inside
this function, so a failed fetch raises (Except.error) out of the whole
expansion. -/
def expandSitemapIndex (w : SitemapWorld) (url : String) (seen : List String) :
    Except Unit (List String × List String) :=
  if hseen : url ∈ seen then Except.ok ([], [])
  else
    match hF : fetchParse w url with
    | none => Except.error ()
    | some candidates =>
      match expandLoop w candidates (seen ++ [url]) with
      | Except.error e => Except.error e
      | Except.ok (us, d) => Except.ok (us, url :: d)
termination_by (unseenCount w seen, 0)
decreasing_by
  apply Prod.Lex.left
  have hk : url ∈ sitemapKeys w := by
    unfold fetchParse at hF
    cases hf : List.find? (fun e => e.1 = url) w with
    | none => rw [hf] at hF; exact absurd hF (by simp)
    | some e =>
      have hmem := List.mem_of_find?_eq_some hf
      have hp := List.find?_some hf
      have he : e.1 = url := by
        by_contra hne
        simp [hne] at hp
      exact he ▸ List.mem_map_of_mem Prod.fst hmem
  apply Finset.card_lt_card
  constructor
  · apply Finset.sdiff_subset_sdiff (le_refl _)
    intro x hx
    simp only [List.toFinset_append, Finset.mem_union]
    exact Or.inl hx
  · intro hsub
    have hmem : url ∈ (sitemapKeys w).toFinset \ seen.toFinset := by
      simp only [Finset.mem_sdiff, List.mem_toFinset]
      exact ⟨hk, hseen⟩
    have h2 := hsub hmem
    simp only [Finset.mem_sdiff, List.toFinset_append, Finset.mem_union,
      List.mem_toFinset] at h2
    exact h2.2 (Or.inr (List.mem_singleton.mpr rfl))

/-- The candidate loop shared by _expand_sitemap_index and
_collect_from_sitemap_source: candidates ending in ".xml" are expanded
recursively (threading the seen set), other candidates are leaf URLs. -/
def expandLoop (w : SitemapWorld) (cs : List String) (seen : List String) :
    Except Unit (List String × List String) :=
  match cs with
  | [] => Except.ok ([], [])
  | c :: rest =>
    if pyEndsWith c ".xml" then
      match expandSitemapIndex w c seen with
      | Except.error e => Except.error e
      | Except.ok (us, d) =>
        match expandLoop w rest (seen ++ d) with
        | Except.error e => Except.error e
        | Except.ok (us2, d2) => Except.ok (us ++ us2, d ++ d2)
    else
      match expandLoop w rest seen with
      | Except.error e => Except.error e
      | Except.ok (us2, d2) => Except.ok (c :: us2, d2)
termination_by (unseenCount w seen, cs.length + 1)
decreasing_by
  · exact Prod.Lex.right _ (Nat.succ_pos _)
  · have hle : unseenCount w (seen ++ d) ≤ unseenCount w seen := by
      apply Finset.card_le_card
      apply Finset.sdiff_subset_sdiff (le_refl _)
      intro x hx
      simp only [List.toFinset_append, Finset.mem_union]
      exact Or.inl hx
    rcases lt_or_eq_of_le hle with hlt | heq
    · exact Prod.Lex.left _ _ hlt
    · rw [heq]
      apply Prod.Lex.right
      simp [List.length_cons]
  · apply Prod.Lex.right
    simp [List.length_cons]

end

/-- The candidate loop with an explicit expansion step function: a
structural, kernel-computable twin of expandLoop used to evaluate the
well-founded recursion on concrete worlds.  A result of none means the
step ran out of fuel. -/
def runLoopF (step : String → List String → Option (Except Unit (List String × List String))) :
    List String → List String → Option (Except Unit (List String × List String))
  | [], _ => some (Except.ok ([], []))
  | c :: rest, seen =>
    if pyEndsWith c ".xml" then
      match step c seen with
      | none => none
      | some (Except.error e) => some (Except.error e)
      | some (Except.ok (us, d)) =>
        match runLoopF step rest (seen ++ d) with
        | none => none
        | some (Except.error e) => some (Except.error e)
        | some (Except.ok (us2, d2)) => some (Except.ok (us ++ us2, d ++ d2))
    else
      match runLoopF step rest seen with
      | none => none
      | some (Except.error e) => some (Except.error e)
      | some (Except.ok (us2, d2)) => some (Except.ok (c :: us2, d2))

/-- Fuel-indexed structural twin of expandSitemapIndex: returns none when
the fuel runs out, and otherwise the value of expandSitemapIndex
(theorem expandSitemapIndexF_agrees). -/
def expandSitemapIndexF (w : SitemapWorld) : Nat → String → List String →
    Option (Except Unit (List String × List String))
  | 0, _, _ => none
  | fuel + 1, url, seen =>
    if url ∈ seen then some (Except.ok ([], []))
    else
      match fetchParse w url with
      | none => some (Except.error ())
      | some candidates =>
        match runLoopF (fun u s => expandSitemapIndexF w fuel u s) candidates
            (seen ++ [url]) with
        | none => none
        | some (Except.error e) => some (Except.error e)
        | some (Except.ok (us, d)) => some (Except.ok (us, url :: d))

/-- sitemap._collect_from_sitemap_source: the top-level fetch is guarded by
try/except (a failure yields an empty list); when any extracted URL ends in
".xml" the result is treated as a sitemap index and expanded, and
exceptions from the expansion are NOT caught. -/
def collectFromSitemapSource (w : SitemapWorld) (url : String)
    (seen : List String) : Except Unit (List String × List String) :=
  match fetchParse w url with
  | none => Except.ok ([], [])
  | some urls =>
    if urls.any (fun u => pyEndsWith u ".xml") then expandLoop w urls seen
    else Except.ok (urls, [])

/-- sitemap._is_allowed_domain: the host of the URL, lower-cased, must be a
configured allowed domain.  urlparse may raise. -/
def isAllowedDomainStr (allowed : List String) (u : String) : Except Unit Bool := do
  let p ← pyUrlparse u.data
  let host := pyLower p.netloc
  return host ≠ [] && allowed.contains (String.mk host)

/-- The final pass of sitemap.collect_urls_from_sources (lines 315-344):
filter to allowed domains, canonicalize, de-duplicate by the canonical
form, truncate once the global budget is reached (the budget test runs
after every allowed URL, appended or not). -/
def finalDedupGo (allowed : List String) (globalMax : Nat) :
    List String → List String → List String → Except Unit (List String)
  | [], unique, _ => Except.ok unique
  | u :: rest, unique, seenNorm =>
    match isAllowedDomainStr allowed u with
    | Except.error e => Except.error e
    | Except.ok ok =>
      if !ok then finalDedupGo allowed globalMax rest unique seenNorm
      else
        match normalize_url u with
        | Except.error e => Except.error e
        | Except.ok n =>
          let st :=
            if seenNorm.contains n then (unique, seenNorm)
            else (unique ++ [n], n :: seenNorm)
          if globalMax ≤ st.1.length then Except.ok st.1
          else finalDedupGo allowed globalMax rest st.1 st.2

/-- Entry point of the final dedup/budget pass. -/
def finalDedup (allowed : List String) (globalMax : Nat)
    (collected : List String) : Except Unit (List String) :=
  finalDedupGo allowed globalMax collected [] []

/-! ## Priority Crawler (crawler.py)

The HTTP transport and HTML link extraction are a world oracle: each URL
known to the world carries a function from attempt index to the outcome of
that GET (a response or a transport exception) and the list of absolute
link targets its page yields after _LinkExtractor and urljoin; the world is
an association list, and a URL absent from it raises a transport exception
on every attempt.  A page whose HTML fails to parse contributes an empty
link list (the Python code then just continues), so parse failure is the
entry links = [].  Sleeping is modelled by recording the slept durations
(politeness delays counted, backoff sleeps in seconds as exact rationals). -/

/-- A received HTTP response: status code, the parsed Retry-After header
(none when absent or unparseable as float) and the Content-Type header. -/
structure CrawlResp where
  status : Nat
  retryAfter : Option Rat
  contentType : String
deriving Repr, DecidableEq

/-- Outcome of one session.get call: a response, or a transport-level
exception (timeout, connection error). -/
inductive AttemptOutcome where
  | resp (r : CrawlResp)
  | exn
deriving Repr, DecidableEq

/-- A page of the crawl world: per-attempt fetch outcomes and the absolute
link targets extracted from its HTML. -/
structure CrawlPage where
  attempts : Nat → AttemptOutcome
  links : List String

/-- World oracle for the crawler. -/
def CrawlWorld := List (String × CrawlPage)

/-- Look up a page; none stands for a URL unreachable at transport level. -/
def findPage (w : CrawlWorld) (url : String) : Option CrawlPage :=
  (List.find? (fun e => e.1 = url) w).map (fun e => e.2)

/-- urllib.parse.urldefrag: when the URL contains a hash, parse it and
rebuild it without its fragment; otherwise return it unchanged. -/
def pyUrldefrag (url : List Char) : Except Unit (List Char) :=
  if url.contains '#' then do
    let p ← pyUrlparse url
    return pyUrlunparse ⟨p.scheme, p.netloc, p.path, p.params, p.query, []⟩
  else Except.ok url

/-- Python substring membership needle in hay, over character lists. -/
def containsSub (needle hay : List Char) : Bool :=
  match hay with
  | [] => needle = []
  | _ :: t => List.isPrefixOf needle hay || containsSub needle t

/-- crawler._get_url_priority: static priority from path substrings
(3 high, 2 medium, 0 low, 1 default); urlparse may raise. -/
def getUrlPriority (url : String) : Except Unit Int := do
  let p ← pyUrlparse url.data
  let path := pyLower p.path
  let highPriority := ["/products", "/pricing", "/docs", "/documentation",
    "/features", "/solutions", "/api", "/guides", "/blog"]
  let mediumPriority := ["/resources", "/case-studies", "/about", "/contact",
    "/help", "/faq", "/integrations"]
  let lowPriority := ["/careers", "/jobs", "/press", "/news", "/legal",
    "/privacy", "/terms", "/cookies"]
  if highPriority.any (fun hp => containsSub hp.data path) then return 3
  else if mediumPriority.any (fun mp => containsSub mp.data path) then return 2
  else if lowPriority.any (fun lp => containsSub lp.data path) then return 0
  else return 1

/-- url_utils._SKIP_EXTENSIONS. -/
def skipExtensions : List String :=
  [".pdf", ".png", ".jpg", ".jpeg", ".gif", ".webp", ".svg", ".ico", ".zip",
   ".rar", ".7z", ".gz", ".tgz", ".mp4", ".mov", ".avi", ".mp3", ".wav",
   ".woff", ".woff2", ".ttf", ".eot"]

/-- url_utils.should_skip_by_extension: the lower-cased path ends in a
binary-asset extension; urlparse may raise. -/
def shouldSkipByExtension (url : String) : Except Unit Bool := do
  let p ← pyUrlparse url.data
  let path := pyLower p.path
  return skipExtensions.any (fun e => List.isSuffixOf e.data path)

/-- url_utils.is_same_root_domain. -/
def isSameRootDomain (host root : String) : Bool :=
  let h := pyLower host.data
  let r := pyLower root.data
  h ≠ [] && r ≠ [] && (h = r || List.isSuffixOf ('.' :: r) h)

/-- The lower-cased netloc of a URL (shared by the domain checks). -/
def hostOf (url : String) : Except Unit (List Char) := do
  let p ← pyUrlparse url.data
  return pyLower p.netloc

/-- One crawl frontier entry: the heapq tuple
(negated priority, insertion counter, url, depth). -/
structure QItem where
  negPriority : Int
  seq : Nat
  url : String
  depth : Nat
deriving Repr, DecidableEq

/-- Lexicographic comparison of character lists by code point
(Python string comparison). -/
def listLtChar : List Char → List Char → Bool
  | [], [] => false
  | [], _ :: _ => true
  | _ :: _, [] => false
  | a :: as, b :: bs =>
    if a < b then true else if b < a then false else listLtChar as bs

/-- The heapq ordering on frontier tuples (Python tuple comparison;
the url and depth components are dead because counters are unique). -/
def qLt (a b : QItem) : Bool :=
  if a.negPriority < b.negPriority then true
  else if b.negPriority < a.negPriority then false
  else if a.seq < b.seq then true
  else if b.seq < a.seq then false
  else if listLtChar a.url.data b.url.data then true
  else if listLtChar b.url.data a.url.data then false
  else a.depth < b.depth

/-- heapq.heappop: extract the least tuple; the returned remainder carries
the length equation used by the termination measure. -/
def popMinQ : (q : List QItem) → Option (QItem × { rest : List QItem // rest.length + 1 = q.length })
  | [] => none
  | x :: xs =>
    match popMinQ xs with
    | none => some (x, ⟨xs, rfl⟩)
    | some (m, ⟨rest, h⟩) =>
      if qLt m x then some (m, ⟨x :: rest, by simp only [List.length_cons]; omega⟩)
      else some (x, ⟨xs, rfl⟩)

/-- Result of the fetch-with-retry loop of crawl_site (lines 225-274):
the final value of the resp variable, the number of GET attempts made, the
backoff sleeps performed, and the number of politeness delays. -/
structure FetchResult where
  resp : Option CrawlResp
  attempts : Nat
  backoffs : List Rat
  politeCount : Nat
deriving Repr

/-- The retry loop body.  The fuel is the number of remaining iterations of
for attempt in range(max_retries + 1); lastResp models the Python resp
variable, which keeps its previous value when session.get raises and is
explicitly reset to None on 404 and on the final transport failure, and
otherwise keeps the last received response when retries run out. -/
def fetchGo (att : Nat → AttemptOutcome) (maxRetries : Nat) (polite : Bool)
    (delay : Rat) : Nat → Nat → Option CrawlResp → List Rat → Nat → FetchResult
  | 0, attempt, lastResp, backoffs, sleeps => ⟨lastResp, attempt, backoffs, sleeps⟩
  | fuel + 1, attempt, lastResp, backoffs, sleeps =>
    let sleeps := if polite ∧ 0 < delay then sleeps + 1 else sleeps
    match att attempt with
    | AttemptOutcome.exn =>
      if maxRetries ≤ attempt then ⟨none, attempt + 1, backoffs, sleeps⟩
      else fetchGo att maxRetries polite delay fuel (attempt + 1) lastResp
        (backoffs ++ [(1 : Rat) * 2 ^ attempt]) sleeps
    | AttemptOutcome.resp r =>
      if r.status = 404 then ⟨none, attempt + 1, backoffs, sleeps⟩
      else if r.status = 429 then
        let base : Rat := 2 * 2 ^ attempt
        let slp := match r.retryAfter with | some q => max base q | none => base
        fetchGo att maxRetries polite delay fuel (attempt + 1) (some r)
          (backoffs ++ [slp]) sleeps
      else if r.status = 500 ∨ r.status = 502 ∨ r.status = 503 ∨
          r.status = 504 ∨ r.status = 520 then
        fetchGo att maxRetries polite delay fuel (attempt + 1) (some r)
          (backoffs ++ [(3 / 2 : Rat) * 2 ^ attempt]) sleeps
      else if 400 ≤ r.status then
        if maxRetries ≤ attempt then ⟨none, attempt + 1, backoffs, sleeps⟩
        else fetchGo att maxRetries polite delay fuel (attempt + 1) (some r)
          (backoffs ++ [(1 : Rat) * 2 ^ attempt]) sleeps
      else ⟨some r, attempt + 1, backoffs, sleeps⟩

/-- The fetch-with-retry protocol for one URL: up to maxRetries + 1
attempts starting at attempt 0 with no response seen yet. -/
def fetchWithRetry (att : Nat → AttemptOutcome) (maxRetries : Nat)
    (polite : Bool) (delay : Rat) : FetchResult :=
  fetchGo att maxRetries polite delay (maxRetries + 1) 0 none [] 0

/-- Crawler state: frontier, visited set, results, failure records (URLs),
insertion counter and the dynamic allowed-hosts set. -/
structure CrawlState where
  queue : List QItem
  visited : List String
  results : List String
  failed : List String
  counter : Nat
  dynHosts : List String

/-- Fixed data for the link-enqueue loop (crawl_site lines 327-351):
during one page's link processing the visited set, the result count and
the budgets do not change. -/
structure LinkCtx where
  maxUrls : Nat
  allowSub : Bool
  rootDomain : Option String
  depth : Nat
  visited : List String
  resultsLen : Nat

/-- Truthiness-guarded same-root test:
allow_same_root_subdomains and root_domain and is_same_root_domain(...). -/
def admitsSameRoot (allowSub : Bool) (rootDomain : Option String)
    (host : String) : Bool :=
  allowSub && (match rootDomain with
    | some r => !(r = "") && isSameRootDomain host r
    | none => false)

/-- Handling of one extracted link (crawl_site lines 327-351).  The
accumulator is (new frontier items, counter, dynamic hosts); the visited
set and result count are fixed in the context.  The href is the absolute
URL produced by urljoin (oracle). -/
def processLink (ctx : LinkCtx) (acc : List QItem × Nat × List String)
    (href : String) : Except Unit (List QItem × Nat × List String) := do
  let (items, counter, dynHosts) := acc
  let defragged ← pyUrldefrag href.data
  let absL ← normalizeUrlList true true true defragged
  let absUrl : String := ⟨absL⟩
  let skip ← shouldSkipByExtension absUrl
  if skip then return acc
  else
    let hostL ← hostOf absUrl
    let host : String := ⟨hostL⟩
    let dynHosts :=
      if admitsSameRoot ctx.allowSub ctx.rootDomain host ∧ ¬ dynHosts.contains host
      then dynHosts ++ [host] else dynHosts
    if ¬ ctx.visited.contains absUrl ∧ (¬ host = "" ∧ dynHosts.contains host) then
      if ctx.resultsLen < ctx.maxUrls then do
        let pr ← getUrlPriority absUrl
        return (items ++ [⟨-pr, counter, absUrl, ctx.depth + 1⟩], counter + 1, dynHosts)
      else return (items, counter, dynHosts)
    else return (items, counter, dynHosts)

/-- Fold processLink over the links of a page, propagating exceptions. -/
def processLinks (ctx : LinkCtx) (acc : List QItem × Nat × List String) :
    List String → Except Unit (List QItem × Nat × List String)
  | [] => Except.ok acc
  | l :: rest =>
    match processLink ctx acc l with
    | Except.error e => Except.error e
    | Except.ok acc2 => processLinks ctx acc2 rest

/-- Termination measure of the crawl loop: world URLs not yet visited. -/
def unseenCrawl (w : CrawlWorld) (visited : List String) : Nat :=
  (((w.map Prod.fst).toFinset) \ visited.toFinset).card

/-- The HTML content-type test of crawl_site lines 303-308. -/
def isHtmlish (contentType : String) : Bool :=
  let ct := pyLower contentType.data
  containsSub "text/html".data ct || containsSub "application/xhtml+xml".data ct ||
    ct = []

/-- One iteration of the crawl loop of crawl_site (lines 191-351):
pop the least frontier tuple, skip visited URLs, check the (dynamic)
domain set, skip asset extensions, fetch with retry, record failures, keep
HTML-ish pages as results and enqueue their links while the result budget
is not reached.  Sum.inl ends the loop with the final result, Sum.inr is
the state for the next iteration. -/
def crawlIter (w : CrawlWorld) (maxUrls maxDepth maxRetries : Nat)
    (allowSub : Bool) (rootDomain : Option String) (polite : Bool)
    (delay : Rat) (sink : Bool) (s : CrawlState) :
    Except Unit CrawlState ⊕ CrawlState :=
  if maxUrls ≤ s.results.length then Sum.inl (Except.ok s)
  else
    match popMinQ s.queue with
    | none => Sum.inl (Except.ok s)
    | some pr =>
      let item := pr.1
      let queue2 := pr.2.1
      if item.url ∈ s.visited then Sum.inr { s with queue := queue2 }
      else
        let s1 : CrawlState := { s with queue := queue2, visited := s.visited ++ [item.url] }
        match hostOf item.url with
        | Except.error e => Sum.inl (Except.error e)
        | Except.ok hostL =>
          let host : String := ⟨hostL⟩
          let allowed := !(host = "") && s1.dynHosts.contains host
          if allowed = false ∧ admitsSameRoot allowSub rootDomain host = false then
            Sum.inr s1
          else
            let s2 : CrawlState :=
              if allowed then s1 else { s1 with dynHosts := s1.dynHosts ++ [host] }
            match shouldSkipByExtension item.url with
            | Except.error e => Sum.inl (Except.error e)
            | Except.ok skip =>
              if skip then Sum.inr s2
              else
                match hfind : findPage w item.url with
                | none =>
                  Sum.inr (if sink then { s2 with failed := s2.failed ++ [item.url] } else s2)
                | some page =>
                  match (fetchWithRetry page.attempts maxRetries polite delay).resp with
                  | none =>
                    Sum.inr (if sink then { s2 with failed := s2.failed ++ [item.url] } else s2)
                  | some r =>
                    if isHtmlish r.contentType then
                      let s3 : CrawlState := { s2 with results := s2.results ++ [item.url] }
                      if maxDepth ≤ item.depth then Sum.inr s3
                      else
                        match processLinks
                            ⟨maxUrls, allowSub, rootDomain, item.depth, s3.visited,
                              s3.results.length⟩
                            ([], s3.counter, s3.dynHosts) page.links with
                        | Except.error e => Sum.inl (Except.error e)
                        | Except.ok acc2 =>
                          Sum.inr { s3 with queue := s3.queue ++ acc2.1, counter := acc2.2.1,
                                            dynHosts := acc2.2.2 }
                    else Sum.inr s2

/-- The while loop: iterate crawlIter until it ends the loop. -/
def crawlLoop (w : CrawlWorld) (maxUrls maxDepth maxRetries : Nat)
    (allowSub : Bool) (rootDomain : Option String) (polite : Bool)
    (delay : Rat) (sink : Bool) (s : CrawlState) : Except Unit CrawlState :=
  match hstep : crawlIter w maxUrls maxDepth maxRetries allowSub rootDomain polite delay sink s with
  | Sum.inl r => r
  | Sum.inr s2 => crawlLoop w maxUrls maxDepth maxRetries allowSub rootDomain polite delay sink s2
termination_by (unseenCrawl w s.visited, s.queue.length)
decreasing_by
  simp only [crawlIter] at hstep
  split at hstep
  · exact absurd hstep (by simp)
  · split at hstep
    · exact absurd hstep (by simp)
    · rename_i pr hpop
      split at hstep
      · -- already-visited URL: the queue gets strictly shorter
        cases hstep
        simp only [unseenCrawl]
        apply Prod.Lex.right
        have hlen := pr.2.2
        omega
      · rename_i hmem
        have hlen := pr.2.2
        have hle : ((w.map Prod.fst).toFinset \ (s.visited ++ [pr.1.url]).toFinset).card ≤
            ((w.map Prod.fst).toFinset \ s.visited.toFinset).card := by
          apply Finset.card_le_card
          apply Finset.sdiff_subset_sdiff (le_refl _)
          intro x hx
          simp only [List.toFinset_append, Finset.mem_union]
          exact Or.inl hx
        split at hstep
        · exact absurd hstep (by simp)
        · rename_i hostL hhost
          split at hstep
          · -- domain-rejected URL
            cases hstep
            simp only [unseenCrawl]
            rcases lt_or_eq_of_le hle with hlt | heq
            · exact Prod.Lex.left _ _ hlt
            · rw [heq]; apply Prod.Lex.right; omega
          · split at hstep
            · exact absurd hstep (by simp)
            · rename_i skip hskip
              split at hstep
              · -- asset-extension skip
                cases hstep
                simp only [unseenCrawl, dite_eq_ite, apply_ite CrawlState.visited,
                  apply_ite CrawlState.queue, ite_self]
                rcases lt_or_eq_of_le hle with hlt | heq
                · exact Prod.Lex.left _ _ hlt
                · rw [heq]; apply Prod.Lex.right; omega
              · split at hstep
                · -- transport-unreachable URL
                  cases hstep
                  simp only [unseenCrawl, dite_eq_ite, apply_ite CrawlState.visited,
                    apply_ite CrawlState.queue, ite_self]
                  rcases lt_or_eq_of_le hle with hlt | heq
                  · exact Prod.Lex.left _ _ hlt
                  · rw [heq]; apply Prod.Lex.right; omega
                · rename_i page hfind
                  have hk : pr.1.url ∈ w.map Prod.fst := by
                    unfold findPage at hfind
                    cases hf : List.find? (fun e => e.1 = pr.1.url) w with
                    | none => rw [hf] at hfind; exact absurd hfind (by simp)
                    | some e =>
                      have hmeme := List.mem_of_find?_eq_some hf
                      have hp := List.find?_some hf
                      have he : e.1 = pr.1.url := by
                        by_contra hne
                        simp [hne] at hp
                      exact he ▸ List.mem_map_of_mem Prod.fst hmeme
                  have hstrict :
                      ((w.map Prod.fst).toFinset \ (s.visited ++ [pr.1.url]).toFinset).card <
                      ((w.map Prod.fst).toFinset \ s.visited.toFinset).card := by
                    apply Finset.card_lt_card
                    constructor
                    · apply Finset.sdiff_subset_sdiff (le_refl _)
                      intro x hx
                      simp only [List.toFinset_append, Finset.mem_union]
                      exact Or.inl hx
                    · intro hsub
                      have hmem2 : pr.1.url ∈ (w.map Prod.fst).toFinset \ s.visited.toFinset := by
                        simp only [Finset.mem_sdiff, List.mem_toFinset]
                        exact ⟨hk, hmem⟩
                      have h2 := hsub hmem2
                      simp only [Finset.mem_sdiff, List.toFinset_append, Finset.mem_union,
                        List.mem_toFinset] at h2
                      exact h2.2 (Or.inr (List.mem_singleton.mpr rfl))
                  split at hstep
                  · -- retries exhausted
                    cases hstep
                    simp only [unseenCrawl, dite_eq_ite, apply_ite CrawlState.visited,
                      apply_ite CrawlState.queue, ite_self]
                    exact Prod.Lex.left _ _ hstrict
                  · split at hstep
                    · -- HTML page
                      split at hstep
                      · cases hstep
                        simp only [unseenCrawl, dite_eq_ite, apply_ite CrawlState.visited,
                          apply_ite CrawlState.queue, ite_self]
                        exact Prod.Lex.left _ _ hstrict
                      · split at hstep
                        · exact absurd hstep (by simp)
                        · cases hstep
                          simp only [unseenCrawl, dite_eq_ite, apply_ite CrawlState.visited,
                            apply_ite CrawlState.queue, ite_self]
                          exact Prod.Lex.left _ _ hstrict
                    · -- non-HTML page
                      cases hstep
                      simp only [unseenCrawl, dite_eq_ite, apply_ite CrawlState.visited,
                        apply_ite CrawlState.queue, ite_self]
                      exact Prod.Lex.left _ _ hstrict

/-- Fuel-indexed structural twin of crawlLoop (theorem crawlLoopF_agrees). -/
def crawlLoopF (w : CrawlWorld) (maxUrls maxDepth maxRetries : Nat)
    (allowSub : Bool) (rootDomain : Option String) (polite : Bool)
    (delay : Rat) (sink : Bool) : Nat → CrawlState → Option (Except Unit CrawlState)
  | 0, _ => none
  | fuel + 1, s =>
    match crawlIter w maxUrls maxDepth maxRetries allowSub rootDomain polite delay sink s with
    | Sum.inl r => some r
    | Sum.inr s2 =>
      crawlLoopF w maxUrls maxDepth maxRetries allowSub rootDomain polite delay sink fuel s2

/-- crawler.crawl_site: normalize the start URL, set up the dynamic
allowed-hosts set and the initial frontier, run the loop.  The Lean
embedding returns the whole final state so that theorems can inspect the
frontier and the visited set; the Python function returns results. -/
def crawlSiteState (w : CrawlWorld) (startUrl : String)
    (allowedHosts : List String) (maxUrls : Nat) (maxDepth : Nat := 2)
    (rootDomain : Option String := none) (allowSub : Bool := false)
    (polite : Bool := true) (delay : Rat := 1 / 4) (maxRetries : Nat := 4)
    (sink : Bool := false) : Except Unit CrawlState := do
  let defragged ← pyUrldefrag startUrl.data
  let startL ← normalizeUrlList true true true defragged
  let start : String := ⟨startL⟩
  let pr ← getUrlPriority start
  let st : CrawlState :=
    { queue := [⟨-pr, 0, start, 0⟩], visited := [], results := [], failed := [],
      counter := 1,
      dynHosts := (allowedHosts.filter (fun h => !(h = ""))).map
        (fun h => (⟨pyLower h.data⟩ : String)) }
  crawlLoop w maxUrls maxDepth maxRetries allowSub rootDomain polite delay sink st

/-- crawl_site as in the source: the collected results list. -/
def crawl_site (w : CrawlWorld) (startUrl : String) (allowedHosts : List String)
    (maxUrls : Nat) (maxDepth : Nat := 2) (rootDomain : Option String := none)
    (allowSub : Bool := false) (polite : Bool := true) (delay : Rat := 1 / 4)
    (maxRetries : Nat := 4) (sink : Bool := false) : Except Unit (List String) :=
  (crawlSiteState w startUrl allowedHosts maxUrls maxDepth rootDomain allowSub
    polite delay maxRetries sink).map (fun st => st.results)

/-! ## Classifier / Scorer (filters.py) and group limits (generator.py)

User-supplied include/exclude rules carry arbitrary regular expressions;
re.search itself is passed to the classifier as an oracle parameter
(re : pattern -> path -> Bool), so control flow over the rules is embedded
exactly while regex semantics stays abstract.  The two fixed language
regexes of _detect_language_prefix and the segment test of
_auto_group_from_path are embedded concretely. -/

/-- filters.FilterRule. -/
structure FilterRule where
  pattern : String
  group : Option String := none
  priority : Int := 0
deriving Repr, DecidableEq

/-- filters.PageEntry. -/
structure PageEntry where
  url : String
  path : String
  group : String
  priority : Int
  score : Int
deriving Repr, DecidableEq

/-- Lowercase ASCII letter. -/
def isLowerAZ (c : Char) : Bool := 'a' ≤ c && c ≤ 'z'

/-- The pattern /([a-z]{2})(?:[-_][a-zA-Z]{2})?/ anchored at the head of
the list (with backtracking over the optional group). -/
def tryLangAt : List Char → Option (List Char)
  | '/' :: a :: b :: rest =>
    if isLowerAZ a && isLowerAZ b then
      match rest with
      | '/' :: _ => some [a, b]
      | s :: c :: d :: r2 =>
        if (s = '-' || s = '_') && c.isAlpha && d.isAlpha &&
            (match r2 with | '/' :: _ => true | _ => false) then some [a, b]
        else none
      | _ => none
    else none
  | _ => none

/-- re.search of the same pattern: leftmost match over all start positions. -/
def searchLang : List Char → Option (List Char)
  | [] => none
  | c :: rest =>
    match tryLangAt (c :: rest) with
    | some code => some code
    | none => searchLang rest

/-- filters._detect_language_prefix: first try the anchored match, then
search anywhere; the group is already lowercase. -/
def detectLangCode (path : List Char) : Option (List Char) :=
  match tryLangAt path with
  | some code => some code
  | none => searchLang path

/-- Nonempty slash-separated segments of a path. -/
def pathSegments (l : List Char) : List (List Char) :=
  (l.splitOn '/').filter (fun s => !(s = []))

/-- The full match ^[a-z]{2}(?:[-_][a-zA-Z]{2})?$ used on the first
segment by _auto_group_from_path. -/
def isLangSegment : List Char → Bool
  | [a, b] => isLowerAZ a && isLowerAZ b
  | [a, b, s, c, d] =>
    isLowerAZ a && isLowerAZ b && (s = '-' || s = '_') && c.isAlpha && d.isAlpha
  | _ => false

/-- Python str.title() on ASCII: first letter of every cased run is
upper-cased, the rest lower-cased. -/
def pyTitleGo : Bool → List Char → List Char
  | _, [] => []
  | prevAlpha, c :: rest =>
    (if prevAlpha then c.toLower else c.toUpper) :: pyTitleGo c.isAlpha rest

/-- str.title entry point. -/
def pyTitle (l : List Char) : List Char := pyTitleGo false l

/-- Python path.strip("/"). -/
def stripSlashBoth (l : List Char) : List Char :=
  ((l.dropWhile (fun c => c = '/')).reverse.dropWhile (fun c => c = '/')).reverse

/-- filters._auto_group_from_path: first non-language segment looked up in
the synonym table, else title-cased. -/
def autoGroupFromPath (path : List Char) : String :=
  if path = "/".data then "Home"
  else
    match pathSegments path with
    | [] => "Other"
    | seg0 :: restSegs =>
      let first0 := pyLower seg0
      let first :=
        if isLangSegment first0 then
          match restSegs with
          | seg1 :: _ => pyLower seg1
          | [] => first0
        else first0
      let inList := fun (ws : List String) => ws.any (fun s => s.data = first)
      if inList ["blog", "blogs", "article", "articles", "post", "posts"] then "Blog"
      else if inList ["doc", "docs", "documentation", "help", "guide", "guides",
          "developers", "developer"] then "Docs"
      else if inList ["product", "products", "solution", "solutions"] then "Products"
      else if inList ["pricing", "price", "prices", "plan", "plans"] then "Pricing"
      else if inList ["about", "about-us", "company"] then "About"
      else if inList ["contact", "support", "help"] then "Support"
      else if inList ["case", "cases", "use-case", "use-cases"] then "Use Cases"
      else if inList ["integration", "integrations", "resource", "resources"] then "Integrations"
      else if inList ["location", "locations", "proxy-location", "proxy-locations"] then "Proxy Locations"
      else if inList ["legal", "privacy", "terms", "policy", "policies"] then "Legal"
      else if inList ["career", "careers", "jobs", "hiring"] then "Careers"
      else if inList ["press", "news", "newsroom", "media"] then "Press"
      else if inList ["affiliate", "affiliates", "partner", "partners"] then "Partners"
      else if inList ["dataset", "datasets", "data"] then "Datasets"
      else if inList ["serp", "search"] then "SERP"
      else if inList ["scraper", "scrapers", "scraping"] then "Scrapers"
      else if inList ["proxy", "proxies"] then "Proxies"
      else
        let name := pyTitle (pyStrip (first.map (fun c => if c = '-' then ' ' else c)))
        if name = [] then "Other" else ⟨name⟩

/-- filters._base_group_weight. -/
def baseGroupWeight (group : String) : Int :=
  let key := pyLower group.data
  let isIn := fun (ws : List String) => ws.any (fun s => s.data = key)
  if isIn ["home"] then 40
  else if isIn ["products", "product"] then 35
  else if isIn ["pricing"] then 30
  else if isIn ["docs", "documentation"] then 28
  else if isIn ["proxies", "proxy"] then 27
  else if isIn ["scrapers", "scraper", "scraping"] then 26
  else if isIn ["blog", "blogs"] then 25
  else if isIn ["serp"] then 24
  else if isIn ["use cases", "usecases"] then 24
  else if isIn ["integrations", "integration"] then 24
  else if isIn ["datasets", "dataset"] then 23
  else if isIn ["proxy locations", "locations"] then 22
  else if isIn ["about", "about us"] then 20
  else if isIn ["partners", "affiliates"] then 19
  else if isIn ["legal"] then 18
  else if isIn ["press", "news"] then 17
  else if isIn ["careers"] then 15
  else 10

/-- filters._compute_score: group weight plus doubled positive priority
minus doubled depth, +10 for the root path, clamped to [0, 200]. -/
def computeScore (group : String) (priority : Int) (path : String) : Int :=
  let depth : Int := max ((pathSegments path.data).length - 1 : Int) 0
  let baseScore := baseGroupWeight group
  let priorityWeight := if 0 < priority then priority * 2 else 0
  let score := baseScore + priorityWeight - depth * 2
  let score := if path = "/" ∨ path = "" then score + 10 else score
  max 0 (min 200 score)

/-- filters._default_exclude_rules. -/
def defaultExcludeRules : List FilterRule :=
  [⟨"/wp-admin/", none, 0⟩, ⟨"/wp-json/", none, 0⟩, ⟨"/search", none, 0⟩,
   ⟨"[?&]s=", none, 0⟩, ⟨"[?&]page=\\d+", none, 0⟩, ⟨"/page/\\d+/?$", none, 0⟩,
   ⟨"/tag/", none, 0⟩, ⟨"/category/", none, 0⟩, ⟨"/feed/?$", none, 0⟩,
   ⟨"\\.xml$", none, 0⟩, ⟨"\\.rss$", none, 0⟩, ⟨"/404", none, 0⟩]

/-- The exact-anchoring test of filters.filter_and_group_urls line 247:
r.pattern.startswith("^") and r.pattern.endswith("$"). -/
def isExactAnchored (pat : String) : Bool :=
  (match pat.data with | c :: _ => c = '^' | [] => false) &&
  (match pat.data.getLast? with | some c => c = '$' | none => false)

/-- Configuration slice consumed by the classifier. -/
structure SiteCfg where
  baseUrl : String
  defaultLanguage : String := "en"
deriving Repr

/-- Configuration slice consumed by the classifier (FiltersConfig).  The
Python fields include / exclude are named includeRules / excludeRules. -/
structure FiltersCfg where
  includeRules : List FilterRule := []
  excludeRules : List FilterRule := []
  autoGroup : Bool := true
  useDefaultExcludes : Bool := true
  autoFilterLanguages : Bool := true
deriving Repr

/-- The application configuration slice used by the classifier. -/
structure AppCfg where
  site : SiteCfg
  filters : FiltersCfg
deriving Repr

/-- The exclusion decision of filter_and_group_urls (lines 236-251), given
the regex oracle, the include rules, the combined exclude rules and the
path: with any include match only exact-anchored exclude rules fire. -/
def isExcluded (re : String → String → Bool) (includeRules excludeRules : List FilterRule)
    (path : String) : Bool :=
  if !(excludeRules = []) then
    let hasIncludeMatch := includeRules.any (fun r => re r.pattern path)
    if hasIncludeMatch then
      excludeRules.any (fun r => re r.pattern path && isExactAnchored r.pattern)
    else
      excludeRules.any (fun r => re r.pattern path)
  else false

/-- The per-URL body of filter_and_group_urls: none when the URL is
dropped (language filter or exclusion), the PageEntry otherwise. -/
def classifyUrl (re : String → String → Bool) (cfg : AppCfg)
    (excludeRules : List FilterRule) (u : String) :
    Except Unit (Option PageEntry) := do
  let p ← pyUrlparse u.data
  let pathL := if p.path = [] then "/".data else p.path
  let path : String := ⟨pathL⟩
  let defaultLang := pyLower
    (if cfg.site.defaultLanguage = "" then "en" else cfg.site.defaultLanguage).data
  let langDrop :=
    if cfg.filters.autoFilterLanguages then
      match detectLangCode pathL with
      | some code => !(code = defaultLang)
      | none => false
    else false
  if langDrop then return none
  else if isExcluded re cfg.filters.includeRules excludeRules path then return none
  else
    let matchedRule := cfg.filters.includeRules.find? (fun r => re r.pattern path)
    let gp : String × Int :=
      match matchedRule with
      | some r =>
        (match r.group with
         | some g => if g = "" then "Other" else g
         | none => "Other", r.priority)
      | none =>
        if cfg.filters.autoGroup then
          let host := pyLower p.netloc
          if path = "/" ∨ stripSlashBoth pathL = [] then
            if containsSub "blog".data host || containsSub "/blog".data pathL then
              ("Blog", 0)
            else if containsSub "doc".data host || containsSub "developer".data host ||
                containsSub "developers".data host then ("Docs", 0)
            else ("Home", 0)
          else (autoGroupFromPath pathL, 0)
        else ("Other", 0)
    let score := computeScore gp.1 gp.2 path
    return some ⟨u, path, gp.1, gp.2, score⟩

/-- The final sort key of filter_and_group_urls line 295:
(group ascending, score descending, path ascending), as a Boolean
reflexive total preorder for mergeSort. -/
def pageLe (p q : PageEntry) : Bool :=
  if listLtChar p.group.data q.group.data then true
  else if listLtChar q.group.data p.group.data then false
  else if p.score > q.score then true
  else if q.score > p.score then false
  else !(listLtChar q.path.data p.path.data)

/-- The per-URL loop of filter_and_group_urls over the input list. -/
def classifyAll (re : String → String → Bool) (cfg : AppCfg)
    (excludeRules : List FilterRule) : List String → Except Unit (List PageEntry)
  | [] => Except.ok []
  | u :: rest => do
    let e ← classifyUrl re cfg excludeRules u
    let tail ← classifyAll re cfg excludeRules rest
    match e with
    | none => return tail
    | some pe => return pe :: tail

/-- filters.filter_and_group_urls: classify every URL, drop the filtered
ones, sort by (group, -score, path).  Python list.sort is a stable sort
and so is insertionSort, and a stable sort is uniquely determined by its
total preorder, so the embedding is exact. -/
def filterAndGroupUrls (re : String → String → Bool) (cfg : AppCfg)
    (urls : List String) : Except Unit (List PageEntry) := do
  let results ← classifyAll re cfg
    ((if cfg.filters.useDefaultExcludes then defaultExcludeRules else []) ++
      cfg.filters.excludeRules) urls
  return List.insertionSort (fun p q => pageLe p q = true) results

/-- Insert a page into the per-group buckets, preserving dict insertion
order (generator._generate_llms_from_urls lines 193-195). -/
def groupInsert (p : PageEntry) : List (String × List PageEntry) →
    List (String × List PageEntry)
  | [] => [(p.group, [p])]
  | (g, ps) :: rest =>
    if g = p.group then (g, ps ++ [p]) :: rest else (g, ps) :: groupInsert p rest

/-- defaultdict(list) bucketing in first-seen group order. -/
def groupByFirstSeen (pages : List PageEntry) : List (String × List PageEntry) :=
  pages.foldl (fun acc p => groupInsert p acc) []

/-- dict.get(gname, default_limit). -/
def lookupLimit (g : String) (ls : List (String × Int)) : Option Int :=
  (ls.find? (fun e => e.1 = g)).map (fun e => e.2)

/-- The stable sort key -p.score of the per-group truncation. -/
def scoreDescLe (p q : PageEntry) : Bool := -p.score ≤ -q.score

/-- generator._generate_llms_from_urls lines 189-207: per-group limits.
When a positive limit applies to a group, keep its limit highest-scoring
pages (stable sort by descending score, then slice), then re-sort
everything by (group, -score, path).  sorted() is stable, matching the
stable insertionSort. -/
def applyGroupLimits (groupLimits : List (String × Int)) (defaultLimit : Option Int)
    (pages : List PageEntry) : List PageEntry :=
  let defaultTruthy := match defaultLimit with | some d => !(d = 0) | none => false
  if !(groupLimits = []) || defaultTruthy then
    let byGroup := groupByFirstSeen pages
    let limited := byGroup.foldl (fun acc gp =>
      let limit : Option Int :=
        match lookupLimit gp.1 groupLimits with
        | some v => some v
        | none => defaultLimit
      match limit with
      | none => acc ++ gp.2
      | some l =>
        if l ≤ 0 then acc ++ gp.2
        else acc ++ (List.insertionSort (fun p q => scoreDescLe p q = true) gp.2).take l.toNat) []
    List.insertionSort (fun p q => pageLe p q = true) limited
  else pages

/-- re.search restricted to patterns that are literal character sequences
with an optional leading ^ anchor and trailing $ anchor: the regex
fragment exercised by the concrete rule sets in the claims (newline-free
subjects, so $ is plain end-of-string). -/
def reLit (pat path : String) : Bool :=
  let d := pat.data
  let hasStart : Bool := match d with | c :: _ => c = '^' | [] => false
  let d1 := if hasStart then d.drop 1 else d
  let hasEnd : Bool := match d1.getLast? with | some c => c = '$' | none => false
  let body := if hasEnd then d1.dropLast else d1
  match hasStart, hasEnd with
  | true, true => path.data = body
  | true, false => List.isPrefixOf body path.data
  | false, true => List.isSuffixOf body path.data
  | false, false => containsSub body path.data

/-! ## Auxiliary predicates and concrete worlds used by the theorems -/

/-- ASCII character. -/
def isAsciiChar (c : Char) : Bool := c.val < 128

/-- ASCII string. -/
def isAsciiStr (s : String) : Bool := s.data.all isAsciiChar

/-- No Python whitespace anywhere in the string. -/
def hasNoPySpace (s : String) : Bool := s.data.all (fun c => !isPySpace c)

/-- The would-be netloc of the URL (computed exactly as pyUrlsplit
computes it) contains no square bracket at all.  Under this condition
neither of CPython 3.11's two bracket checks can raise: the
unmatched-bracket test is false and _check_bracketed_host is never
reached (both are guarded on a bracket being present), so the source's
urlsplit provably returns on such input and the partial bracket modelling
of pyUrlsplit is exact (see file header). -/
def noBracketsInNetloc (u : String) : Bool :=
  let url1 := removeUnsafeBytes (pyStrip u.data)
  let (_, url2) := splitScheme url1
  let (netloc, _) :=
    if url2.take 2 = ['/', '/'] then
      ((url2.drop 2).takeWhile (fun c => !isNetlocDelim c),
       (url2.drop 2).dropWhile (fun c => !isNetlocDelim c))
    else ([], url2)
  !netloc.contains '[' && !netloc.contains ']'

/-- The parsed path of the stripped URL does not consist of two or more
slashes only (such a path collapses to nothing under trailing-slash
stripping, the first idempotence failure mode). -/
def pathNotAllSlash (u : String) : Bool :=
  match pyUrlparse (pyStrip u.data) with
  | Except.error _ => true
  | Except.ok p =>
    let path0 := if p.path = [] then ['/'] else p.path
    !(!(path0 = ['/']) && path0.all (fun c => c = '/'))

/-- The parse of the stripped URL does not yield an empty authority with a
path starting in two slashes (such a path is re-read as an authority on
the second parse, the second idempotence failure mode). -/
def noAuthorityPathConfusion (u : String) : Bool :=
  match pyUrlparse (pyStrip u.data) with
  | Except.error _ => true
  | Except.ok p => !(p.netloc = [] && p.path.take 2 = ['/', '/'])

/-- Sitemap world with a cyclic index: a.xml references b.xml, which
references a.xml again plus one leaf page. -/
def wCycle : SitemapWorld :=
  [("https://s.com/a.xml", ["https://s.com/b.xml"]),
   ("https://s.com/b.xml", ["https://s.com/a.xml", "https://s.com/p1"])]

/-- Sitemap world whose index references a child sitemap that fails to
fetch (the child is absent from the world). -/
def wChildFail : SitemapWorld :=
  [("https://s.com/sitemap.xml", ["https://s.com/child.xml", "https://s.com/p1"])]

/-- A plain successful HTML response. -/
def okHtmlResp : CrawlResp := ⟨200, none, "text/html"⟩

/-- Crawl world for the budget claim: the start page links to a
high-priority and a low-priority page, all pages healthy. -/
def wC3 : CrawlWorld :=
  [("https://h.com/", ⟨fun _ => AttemptOutcome.resp okHtmlResp,
      ["https://h.com/pricing", "https://h.com/careers"]⟩),
   ("https://h.com/pricing", ⟨fun _ => AttemptOutcome.resp okHtmlResp, []⟩),
   ("https://h.com/careers", ⟨fun _ => AttemptOutcome.resp okHtmlResp, []⟩)]

/-- A 429 response carrying an HTML content type. -/
def resp429 : CrawlResp := ⟨429, none, "text/html"⟩

/-- Crawl world for the retry-exhaustion claim: one URL that answers 429
to every attempt. -/
def wC4 : CrawlWorld := [("https://h.com/rate", ⟨fun _ => AttemptOutcome.resp resp429, []⟩)]

/-- The configuration of the include-overrides-exclude scenario: include
rule ^/docs with group Docs, non-anchored exclude rule blog. -/
def cfgC5 : AppCfg :=
  { site := { baseUrl := "https://x.com", defaultLanguage := "en" },
    filters := { includeRules := [⟨"^/docs", some "Docs", 0⟩],
                 excludeRules := [⟨"blog", none, 0⟩],
                 autoGroup := true, useDefaultExcludes := false,
                 autoFilterLanguages := true } }

/-- Ten pages in group Blog with pairwise-distinct scores, for the
group-limit witness. -/
def blogPages : List PageEntry :=
  [⟨"https://x.com/blog/a", "/blog/a", "Blog", 0, 10⟩,
   ⟨"https://x.com/blog/b", "/blog/b", "Blog", 0, 80⟩,
   ⟨"https://x.com/blog/c", "/blog/c", "Blog", 0, 30⟩,
   ⟨"https://x.com/blog/d", "/blog/d", "Blog", 0, 70⟩,
   ⟨"https://x.com/blog/e", "/blog/e", "Blog", 0, 20⟩,
   ⟨"https://x.com/blog/f", "/blog/f", "Blog", 0, 60⟩,
   ⟨"https://x.com/blog/g", "/blog/g", "Blog", 0, 40⟩,
   ⟨"https://x.com/blog/h", "/blog/h", "Blog", 0, 90⟩,
   ⟨"https://x.com/blog/i", "/blog/i", "Blog", 0, 50⟩,
   ⟨"https://x.com/blog/j", "/blog/j", "Blog", 0, 100⟩]

/-! ## Agreement of the fuel twins with the well-founded loops -/

/-- The candidate-loop twin computes expandLoop whenever its step function
computes expandSitemapIndex. -/
theorem runLoopF_agrees (w : SitemapWorld)
    (step : String → List String → Option (Except Unit (List String × List String)))
    (hstep : ∀ u s r, step u s = some r → expandSitemapIndex w u s = r) :
    ∀ cs seen res, runLoopF step cs seen = some res → expandLoop w cs seen = res := by
  intro cs
  induction cs with
  | nil =>
    intro seen res h
    simp only [runLoopF, Option.some.injEq] at h
    simp only [expandLoop]
    exact h
  | cons c rest ih =>
    intro seen res h
    simp only [runLoopF] at h
    simp only [expandLoop]
    by_cases hxml : pyEndsWith c ".xml"
    · simp only [hxml, if_true] at h ⊢
      cases hs : step c seen with
      | none => rw [hs] at h; exact absurd h (by simp)
      | some r1 =>
        rw [hs] at h
        rw [hstep c seen r1 hs]
        cases r1 with
        | error e => simpa using h
        | ok p1 =>
          obtain ⟨us, d⟩ := p1
          dsimp only at h ⊢
          cases hr : runLoopF step rest (seen ++ d) with
          | none => rw [hr] at h; exact absurd h (by simp)
          | some r2 =>
            rw [hr] at h
            rw [ih (seen ++ d) r2 hr]
            cases r2 with
            | error e => simpa using h
            | ok p2 => simpa using h
    · simp only [hxml, if_false] at h ⊢
      cases hr : runLoopF step rest seen with
      | none => rw [hr] at h; exact absurd h (by simp)
      | some r2 =>
        rw [hr] at h
        rw [ih seen r2 hr]
        cases r2 with
        | error e => simpa using h
        | ok p2 =>
          obtain ⟨us2, d2⟩ := p2
          simpa using h

/-- The fuel twin computes expandSitemapIndex whenever it does not run out
of fuel. -/
theorem expandSitemapIndexF_agrees (w : SitemapWorld) :
    ∀ fuel url seen res, expandSitemapIndexF w fuel url seen = some res →
      expandSitemapIndex w url seen = res := by
  intro fuel
  induction fuel with
  | zero => intro url seen res h; exact absurd h (by simp [expandSitemapIndexF])
  | succ fuel ih =>
    intro url seen res h
    simp only [expandSitemapIndexF] at h
    simp only [expandSitemapIndex]
    split
    · next hseen =>
      rw [if_pos hseen] at h
      simpa using h
    · next hseen =>
      rw [if_neg hseen] at h
      split
      · next hF => rw [hF] at h; simpa using h
      · next candidates hF =>
        rw [hF] at h
        dsimp only at h
        cases hr : runLoopF (fun u s => expandSitemapIndexF w fuel u s) candidates (seen ++ [url]) with
        | none => rw [hr] at h; exact absurd h (by simp)
        | some r1 =>
          rw [hr] at h
          have hloop := runLoopF_agrees w (fun u s => expandSitemapIndexF w fuel u s)
            (fun u s r hr2 => ih u s r hr2) candidates (seen ++ [url]) r1 hr
          rw [hloop]
          cases r1 with
          | error e => simpa using h
          | ok p1 =>
            obtain ⟨us, d⟩ := p1
            simpa using h

/-- The fuel twin computes crawlLoop whenever it does not run out of
fuel. -/
theorem crawlLoopF_agrees (w : CrawlWorld) (maxUrls maxDepth maxRetries : Nat)
    (allowSub : Bool) (rootDomain : Option String) (polite : Bool)
    (delay : Rat) (sink : Bool) :
    ∀ fuel s res,
      crawlLoopF w maxUrls maxDepth maxRetries allowSub rootDomain polite delay sink fuel s =
        some res →
      crawlLoop w maxUrls maxDepth maxRetries allowSub rootDomain polite delay sink s = res := by
  intro fuel
  induction fuel with
  | zero => intro s res h; exact absurd h (by simp [crawlLoopF])
  | succ fuel ih =>
    intro s res h
    simp only [crawlLoopF] at h
    rw [crawlLoop.eq_def]
    split
    · next r heq => rw [heq] at h; simpa using h
    · next s2 heq => rw [heq] at h; dsimp only at h; exact ih s2 res h

/-! ## The claims -/

/-- C1: the three URL variants https://a.com/x, https://A.com/x/ and
http://a.com/x all normalize to the same canonical string, and the Source
Collector's final pass (allowed-domain filter, canonicalize, dedup by
canonical key, truncate to the global budget) emits exactly one entry for
them. -/
theorem dedup_canonicalizes_three_variants_to_one :
    normalize_url "https://a.com/x" = Except.ok "https://a.com/x" ∧
    normalize_url "https://A.com/x/" = Except.ok "https://a.com/x" ∧
    normalize_url "http://a.com/x" = Except.ok "https://a.com/x" ∧
    finalDedup ["a.com"] 2000 ["https://a.com/x", "https://A.com/x/", "http://a.com/x"] =
      Except.ok ["https://a.com/x"] :=
  ⟨rfl, rfl, rfl, rfl⟩

/-- C2 (bug demonstration): a fetch failure of a child sitemap reached
during index expansion is NOT absorbed: _collect_from_sitemap_source
raises out of the collection (first conjunct), although a failure of the
top-level fetch is absorbed into an empty list (second conjunct). -/
theorem sitemap_child_fetch_failure_aborts_collection :
    collectFromSitemapSource wChildFail "https://s.com/sitemap.xml" [] = Except.error () ∧
    collectFromSitemapSource wChildFail "https://s.com/missing.xml" [] = Except.ok ([], []) := by
  constructor
  · have hloop : expandLoop wChildFail ["https://s.com/child.xml", "https://s.com/p1"] [] =
        Except.error () :=
      runLoopF_agrees wChildFail (fun u s => expandSitemapIndexF wChildFail 2 u s)
        (fun u s r h => expandSitemapIndexF_agrees wChildFail 2 u s r h) _ [] _ rfl
    simp only [collectFromSitemapSource]
    rw [show fetchParse wChildFail "https://s.com/sitemap.xml" =
      some ["https://s.com/child.xml", "https://s.com/p1"] from rfl]
    dsimp only
    rw [if_pos (by decide)]
    exact hloop
  · rfl

/-- C3 (bug demonstration): with budget maxURLs = 2, the crawl of wC3
stops the moment the second result is collected: the high-priority link is
processed, but the already-enqueued low-priority frontier item
(careers, enqueued before the cap was reached) is left in the final
frontier, unvisited and unprocessed — the loop condition
len(results) < max_urls cuts in-flight exploration despite the comment
announcing that queued items may still be processed. -/
theorem crawl_budget_reached_leaves_frontier_unprocessed :
    crawlSiteState wC3 "https://h.com/" ["h.com"] 2 = Except.ok
      { queue := [⟨0, 2, "https://h.com/careers", 1⟩],
        visited := ["https://h.com/", "https://h.com/pricing"],
        results := ["https://h.com/", "https://h.com/pricing"],
        failed := [], counter := 3, dynHosts := ["h.com"] } := by
  have h := crawlLoopF_agrees wC3 2 2 4 false none true (1 / 4) false 5
    { queue := [⟨-1, 0, "https://h.com/", 0⟩], visited := [], results := [],
      failed := [], counter := 1, dynHosts := ["h.com"] }
    (Except.ok
      { queue := [⟨0, 2, "https://h.com/careers", 1⟩],
        visited := ["https://h.com/", "https://h.com/pricing"],
        results := ["https://h.com/", "https://h.com/pricing"],
        failed := [], counter := 3, dynHosts := ["h.com"] }) rfl
  calc crawlSiteState wC3 "https://h.com/" ["h.com"] 2
      = crawlLoop wC3 2 2 4 false none true (1 / 4) false
        { queue := [⟨-1, 0, "https://h.com/", 0⟩], visited := [], results := [],
          failed := [], counter := 1, dynHosts := ["h.com"] } := rfl
    _ = _ := h

/-- C4 (bug demonstration): a URL answering 429 to every one of the
maxRetries + 1 = 5 attempts leaves resp bound to the last 429 response
(first and second conjuncts: attempts exhausted, resp not None), so the
crawler appends the URL to the results and records NO FailedURLRecord even
though a failure sink was supplied (third conjunct: results contain the
URL, failed is empty). -/
theorem crawl_exhausted_429_retries_yield_result_not_failure :
    (fetchWithRetry (fun _ => AttemptOutcome.resp resp429) 4 true (1 / 4)).resp = some resp429 ∧
    (fetchWithRetry (fun _ => AttemptOutcome.resp resp429) 4 true (1 / 4)).attempts = 5 ∧
    crawlSiteState wC4 "https://h.com/rate" ["h.com"] 5 2 none false true (1 / 4) 4 true = Except.ok
      { queue := [], visited := ["https://h.com/rate"],
        results := ["https://h.com/rate"],
        failed := [], counter := 1, dynHosts := ["h.com"] } := by
  refine ⟨rfl, rfl, ?_⟩
  have h := crawlLoopF_agrees wC4 5 2 4 false none true (1 / 4) true 3
    { queue := [⟨-1, 0, "https://h.com/rate", 0⟩], visited := [], results := [],
      failed := [], counter := 1, dynHosts := ["h.com"] }
    (Except.ok
      { queue := [], visited := ["https://h.com/rate"],
        results := ["https://h.com/rate"],
        failed := [], counter := 1, dynHosts := ["h.com"] }) rfl
  calc crawlSiteState wC4 "https://h.com/rate" ["h.com"] 5 2 none false true (1 / 4) 4 true
      = crawlLoop wC4 5 2 4 false none true (1 / 4) true
        { queue := [⟨-1, 0, "https://h.com/rate", 0⟩], visited := [], results := [],
          failed := [], counter := 1, dynHosts := ["h.com"] } := rfl
    _ = _ := h

/-- C6: sitemap-index expansion terminates on cyclic references because an
already-seen sitemap URL contributes an empty list (first conjunct, for
every world and seen set), and on the concrete two-sitemap cycle the
expansion terminates with exactly the leaf discovered before the cycle was
detected (second conjunct). -/
theorem sitemap_cycle_expansion_terminates :
    (∀ (w : SitemapWorld) (url : String) (seen : List String), url ∈ seen →
      expandSitemapIndex w url seen = Except.ok ([], [])) ∧
    expandSitemapIndex wCycle "https://s.com/a.xml" [] =
      Except.ok (["https://s.com/p1"], ["https://s.com/a.xml", "https://s.com/b.xml"]) := by
  constructor
  · intro w url seen hseen
    simp only [expandSitemapIndex]
    rw [dif_pos hseen]
  · exact expandSitemapIndexF_agrees wCycle 3 _ [] _ rfl

/-- C6 witness: the membership hypothesis of the first conjunct
discharged at a concrete world, URL and seen set. -/
theorem sitemap_cycle_expansion_terminates_witness :
    expandSitemapIndex [] "https://s.com/a.xml" ["https://s.com/a.xml"] =
      Except.ok ([], []) :=
  sitemap_cycle_expansion_terminates.1 [] "https://s.com/a.xml"
    ["https://s.com/a.xml"] (by decide)

/-- C7: a crawl target whose first fetch attempt returns HTTP 404 is
abandoned after exactly one attempt for every retry budget: the fetch
protocol returns no response, one attempt, and performs no backoff sleep
(only the politeness delay that precedes the single attempt). -/
theorem crawl_404_aborts_after_one_attempt :
    ∀ (att : Nat → AttemptOutcome) (r : CrawlResp)
      (maxRetries : Nat) (polite : Bool) (delay : Rat),
      att 0 = AttemptOutcome.resp r → r.status = 404 →
      fetchWithRetry att maxRetries polite delay =
        ⟨none, 1, [], if polite ∧ 0 < delay then 1 else 0⟩ := by
  intro att r m p d hatt hst
  unfold fetchWithRetry
  unfold fetchGo
  rw [hatt]
  dsimp only
  rw [hst]
  rw [if_pos rfl]

/-- C7 witness: the 404 hypotheses discharged at a concrete outcome
function and retry budget. -/
theorem crawl_404_aborts_after_one_attempt_witness :
    fetchWithRetry (fun _ => AttemptOutcome.resp ⟨404, none, "text/html"⟩) 4 true (1 / 4) =
      ⟨none, 1, [], if (true : Bool) ∧ (0 : Rat) < 1 / 4 then 1 else 0⟩ :=
  crawl_404_aborts_after_one_attempt (fun _ => AttemptOutcome.resp ⟨404, none, "text/html"⟩)
    ⟨404, none, "text/html"⟩ 4 true (1 / 4) rfl rfl

/-- C5: with include rule ^/docs (group Docs) and non-anchored exclude
rule blog, the path /docs/blog/post is not excluded and lands in the
output in group Docs (third conjunct); in general, whenever some include
rule matches, only exact-anchored (leading ^ and trailing $) exclude rules
can exclude the path (first conjunct), and with no include match every
exclude rule applies (second conjunct). -/
theorem include_match_narrows_exclusion_to_anchored :
    (∀ (re : String → String → Bool) (inc exc : List FilterRule) (path : String),
      (∃ r ∈ inc, re r.pattern path = true) →
      (isExcluded re inc exc path = true ↔
        ∃ r ∈ exc, re r.pattern path = true ∧ isExactAnchored r.pattern = true)) ∧
    (∀ (re : String → String → Bool) (inc exc : List FilterRule) (path : String),
      (¬ ∃ r ∈ inc, re r.pattern path = true) →
      (isExcluded re inc exc path = true ↔ ∃ r ∈ exc, re r.pattern path = true)) ∧
    filterAndGroupUrls reLit cfgC5 ["https://x.com/docs/blog/post"] =
      Except.ok [⟨"https://x.com/docs/blog/post", "/docs/blog/post", "Docs", 0, 24⟩] := by
  refine ⟨?_, ?_, rfl⟩
  · intro re inc exc path hinc
    simp only [isExcluded]
    by_cases hexc : exc = []
    · subst hexc
      simp
    · rw [if_pos (by simpa using hexc)]
      rw [if_pos (by simpa [List.any_eq_true] using hinc)]
      simp [List.any_eq_true]
  · intro re inc exc path hinc
    simp only [isExcluded]
    by_cases hexc : exc = []
    · subst hexc
      simp
    · rw [if_pos (by simpa using hexc)]
      rw [if_neg (by simpa [List.any_eq_true] using hinc)]
      simp [List.any_eq_true]

/-- C5 witness: the include-match hypothesis of the first conjunct
discharged at the concrete rules of the scenario. -/
theorem include_match_narrows_exclusion_witness :
    (isExcluded reLit [⟨"^/docs", some "Docs", 0⟩] [⟨"blog", none, 0⟩] "/docs/blog/post" = true ↔
      ∃ r ∈ [(⟨"blog", none, 0⟩ : FilterRule)], reLit r.pattern "/docs/blog/post" = true ∧
        isExactAnchored r.pattern = true) :=
  include_match_narrows_exclusion_to_anchored.1 reLit
    [⟨"^/docs", some "Docs", 0⟩] [⟨"blog", none, 0⟩] "/docs/blog/post"
    ⟨⟨"^/docs", some "Docs", 0⟩, by simp, by decide⟩

/-- Strict character-list comparison is irreflexive. -/
theorem listLtChar_irrefl : ∀ a : List Char, listLtChar a a = false := by
  intro a
  induction a with
  | nil => rfl
  | cons c cs ih => simp [listLtChar, ih]

/-- Strict character-list comparison is asymmetric. -/
theorem listLtChar_asymm : ∀ a b : List Char, listLtChar a b = true → listLtChar b a = false := by
  intro a
  induction a with
  | nil => intro b h; cases b <;> simp_all [listLtChar]
  | cons c cs ih =>
    intro b h
    cases b with
    | nil => simp_all [listLtChar]
    | cons d ds =>
      simp only [listLtChar] at h ⊢
      rcases lt_trichotomy c d with hcd | hcd | hcd
      · rw [if_neg (lt_asymm hcd), if_pos hcd]
      · subst hcd
        simp only [lt_irrefl, if_false, if_neg (lt_irrefl c)] at h ⊢
        exact ih ds h
      · rw [if_neg (lt_asymm hcd), if_pos hcd] at h
        exact absurd h (by simp)

/-- Strict character-list comparison is transitive. -/
theorem listLtChar_trans : ∀ a b c : List Char,
    listLtChar a b = true → listLtChar b c = true → listLtChar a c = true := by
  intro a
  induction a with
  | nil =>
    intro b c hab hbc
    cases b with
    | nil => simp_all [listLtChar]
    | cons d ds => cases c with
      | nil => simp_all [listLtChar]
      | cons e es => rfl
  | cons x xs ih =>
    intro b c hab hbc
    cases b with
    | nil => simp_all [listLtChar]
    | cons d ds =>
      cases c with
      | nil => simp_all [listLtChar]
      | cons e es =>
        simp only [listLtChar] at hab hbc ⊢
        rcases lt_trichotomy x d with h1 | h1 | h1
        · rcases lt_trichotomy d e with h2 | h2 | h2
          · rw [if_pos (lt_trans h1 h2)]
          · subst h2; rw [if_pos h1]
          · rw [if_neg (lt_asymm h2), if_pos h2] at hbc
            exact absurd hbc (by simp)
        · subst h1
          rcases lt_trichotomy x e with h2 | h2 | h2
          · rw [if_pos h2]
          · subst h2
            simp only [lt_irrefl, if_neg (lt_irrefl x)] at hab hbc ⊢
            exact ih ds es hab hbc
          · rw [if_neg (lt_asymm h2), if_pos h2] at hbc
            exact absurd hbc (by simp)
        · rw [if_neg (lt_asymm h1), if_pos h1] at hab
          exact absurd hab (by simp)

/-- Incomparable character lists are equal. -/
theorem listLtChar_eq_of_not : ∀ a b : List Char,
    listLtChar a b = false → listLtChar b a = false → a = b := by
  intro a
  induction a with
  | nil =>
    intro b hab hba
    cases b with
    | nil => rfl
    | cons d ds => simp_all [listLtChar]
  | cons x xs ih =>
    intro b hab hba
    cases b with
    | nil => simp_all [listLtChar]
    | cons d ds =>
      simp only [listLtChar] at hab hba
      rcases lt_trichotomy x d with h1 | h1 | h1
      · rw [if_pos h1] at hab; exact absurd hab (by simp)
      · subst h1
        simp only [lt_irrefl, if_neg (lt_irrefl x)] at hab hba
        rw [ih ds hab hba]
      · rw [if_pos h1] at hba; exact absurd hba (by simp)


/-- Propositional characterization of the sort key order
(group ascending, score descending, path ascending). -/
theorem pageLe_iff (p q : PageEntry) :
    pageLe p q = true ↔
      (listLtChar p.group.data q.group.data = true ∨
        (p.group.data = q.group.data ∧
          (q.score < p.score ∨
            (p.score = q.score ∧ listLtChar q.path.data p.path.data = false)))) := by
  unfold pageLe
  split_ifs with h1 h2 h3 h4
  · simp [h1]
  · simp only [Bool.false_eq_true, false_iff]
    rintro (hg | ⟨hgeq, _⟩)
    · exact h1 hg
    · rw [hgeq] at h2
      rw [listLtChar_irrefl] at h2
      exact absurd h2 (by simp)
  · have hgeq := listLtChar_eq_of_not _ _ (Bool.not_eq_true _ ▸ Bool.of_not_eq_true h1)
      (Bool.of_not_eq_true h2)
    simp only [true_iff]
    exact Or.inr ⟨hgeq, Or.inl (by omega)⟩
  · simp only [Bool.false_eq_true, false_iff]
    rintro (hg | ⟨hgeq, hs | ⟨hs, _⟩⟩)
    · exact h1 hg
    · omega
    · omega
  · have hgeq := listLtChar_eq_of_not _ _ (Bool.of_not_eq_true h1) (Bool.of_not_eq_true h2)
    have hseq : p.score = q.score := by omega
    simp only [Bool.not_eq_true']
    constructor
    · intro hp
      exact Or.inr ⟨hgeq, Or.inr ⟨hseq, hp⟩⟩
    · rintro (hg | ⟨_, hs | ⟨_, hp⟩⟩)
      · exact absurd hg (Bool.of_not_eq_true h1 ▸ by simp [Bool.of_not_eq_true h1])
      · omega
      · exact hp

/-- The sort key order is total. -/
theorem pageLe_total : ∀ p q : PageEntry, pageLe p q = true ∨ pageLe q p = true := by
  intro p q
  rw [pageLe_iff, pageLe_iff]
  rcases h1 : listLtChar p.group.data q.group.data with _ | _
  · rcases h2 : listLtChar q.group.data p.group.data with _ | _
    · have hgeq := listLtChar_eq_of_not _ _ h1 h2
      rcases lt_trichotomy p.score q.score with hs | hs | hs
      · right; exact Or.inr ⟨hgeq.symm, Or.inl hs⟩
      · rcases h3 : listLtChar q.path.data p.path.data with _ | _
        · left; exact Or.inr ⟨hgeq, Or.inr ⟨hs, rfl⟩⟩
        · right
          exact Or.inr ⟨hgeq.symm, Or.inr ⟨hs.symm, listLtChar_asymm _ _ h3⟩⟩
      · left; exact Or.inr ⟨hgeq, Or.inl hs⟩
    · right; exact Or.inl rfl
  · left; exact Or.inl rfl

/-- The sort key order is transitive. -/
theorem pageLe_trans : ∀ p q r : PageEntry,
    pageLe p q = true → pageLe q r = true → pageLe p r = true := by
  intro p q r hpq hqr
  rw [pageLe_iff] at hpq hqr ⊢
  rcases hpq with hg1 | ⟨hgeq1, hs1⟩
  · rcases hqr with hg2 | ⟨hgeq2, _⟩
    · exact Or.inl (listLtChar_trans _ _ _ hg1 hg2)
    · exact Or.inl (hgeq2 ▸ hg1)
  · rcases hqr with hg2 | ⟨hgeq2, hs2⟩
    · exact Or.inl (hgeq1 ▸ hg2)
    · refine Or.inr ⟨hgeq1.trans hgeq2, ?_⟩
      rcases hs1 with hlt1 | ⟨hse1, hp1⟩
      · rcases hs2 with hlt2 | ⟨hse2, _⟩
        · exact Or.inl (by omega)
        · exact Or.inl (by omega)
      · rcases hs2 with hlt2 | ⟨hse2, hp2⟩
        · exact Or.inl (by omega)
        · refine Or.inr ⟨by omega, ?_⟩
          rcases h3 : listLtChar r.path.data p.path.data with _ | _
          · rfl
          · rcases h4 : listLtChar p.path.data q.path.data with _ | _
            · have := listLtChar_eq_of_not _ _ h4 hp1
              rw [← this] at hp2
              rw [h3] at hp2
              exact absurd hp2 (by simp)
            · have := listLtChar_trans _ _ _ h3 h4
              rw [this] at hp2
              exact absurd hp2 (by simp)


/-- Inserting a page of the same group extends the single bucket. -/
theorem groupInsert_same (g : String) (xs : List PageEntry) (p : PageEntry)
    (hp : p.group = g) : groupInsert p [(g, xs)] = [(g, xs ++ [p])] := by
  simp [groupInsert, hp]

/-- Bucketing pages of one group keeps a single bucket. -/
theorem foldl_groupInsert_const (g : String) :
    ∀ (pages : List PageEntry) (xs : List PageEntry), (∀ p ∈ pages, p.group = g) →
      pages.foldl (fun acc p => groupInsert p acc) [(g, xs)] = [(g, xs ++ pages)] := by
  intro pages
  induction pages with
  | nil => intro xs _; simp
  | cons p rest ih =>
    intro xs hall
    rw [List.foldl_cons, groupInsert_same g xs p (hall p (by simp))]
    rw [ih (xs ++ [p]) (fun q hq => hall q (by simp [hq]))]
    simp

/-- All pages in one group bucket into a single entry. -/
theorem groupByFirstSeen_const (g : String) (p0 : PageEntry) (rest : List PageEntry)
    (hall : ∀ p ∈ p0 :: rest, p.group = g) :
    groupByFirstSeen (p0 :: rest) = [(g, p0 :: rest)] := by
  unfold groupByFirstSeen
  rw [List.foldl_cons]
  have h0 : groupInsert p0 ([] : List (String × List PageEntry)) = [(p0.group, [p0])] := rfl
  rw [h0, hall p0 (by simp)]
  rw [foldl_groupInsert_const g rest [p0] (fun q hq => hall q (by simp [hq]))]
  simp

/-- With a single group Blog limited to 3, the group-limit pass is a
stable score sort, a take of 3, and the final key sort. -/
theorem applyGroupLimits_blog3 (pages : List PageEntry)
    (hne : pages ≠ []) (hall : ∀ p ∈ pages, p.group = "Blog") :
    applyGroupLimits [("Blog", 3)] none pages =
      List.insertionSort (fun p q => pageLe p q = true)
        ((List.insertionSort (fun p q => scoreDescLe p q = true) pages).take 3) := by
  obtain ⟨p0, rest, rfl⟩ := List.exists_cons_of_ne_nil hne
  unfold applyGroupLimits
  rw [groupByFirstSeen_const "Blog" p0 rest hall]
  rfl


/-- C8: the classifier output is sorted by (group ascending, score
descending, path ascending) (first conjunct), and per-group limit
truncation with limit 3 on ten Blog pages of distinct scores keeps
exactly the three highest-scoring pages, in score-descending order
(second conjunct: length, membership, descending order, and dominance of
kept over dropped pages). -/
theorem classifier_sorted_and_group_limit :
    (∀ (re : String → String → Bool) (cfg : AppCfg) (urls : List String)
      (res : List PageEntry),
      filterAndGroupUrls re cfg urls = Except.ok res →
      List.Sorted (fun p q => pageLe p q = true) res) ∧
    (∀ pages : List PageEntry,
      pages.length = 10 →
      (∀ p ∈ pages, p.group = "Blog") →
      List.Pairwise (fun p q => p.score ≠ q.score) pages →
      (applyGroupLimits [("Blog", 3)] none pages).length = 3 ∧
      (∀ p ∈ applyGroupLimits [("Blog", 3)] none pages, p ∈ pages) ∧
      List.Pairwise (fun p q => q.score < p.score)
        (applyGroupLimits [("Blog", 3)] none pages) ∧
      (∀ q ∈ pages, q ∉ applyGroupLimits [("Blog", 3)] none pages →
        ∀ p ∈ applyGroupLimits [("Blog", 3)] none pages, q.score < p.score)) := by
  haveI instTransP : IsTrans PageEntry (fun p q => pageLe p q = true) :=
    ⟨fun a b c => pageLe_trans a b c⟩
  haveI instTotalP : IsTotal PageEntry (fun p q => pageLe p q = true) :=
    ⟨pageLe_total⟩
  haveI instTransS : IsTrans PageEntry (fun p q => scoreDescLe p q = true) :=
    ⟨by intro a b c hab hbc; simp only [scoreDescLe, decide_eq_true_eq] at hab hbc ⊢; omega⟩
  haveI instTotalS : IsTotal PageEntry (fun p q => scoreDescLe p q = true) :=
    ⟨by intro a b; simp only [scoreDescLe, decide_eq_true_eq]; omega⟩
  constructor
  · intro re cfg urls res h
    unfold filterAndGroupUrls at h
    cases hc : classifyAll re cfg
        ((if cfg.filters.useDefaultExcludes then defaultExcludeRules else []) ++
          cfg.filters.excludeRules) urls with
    | error e => rw [hc] at h; exact absurd h (by simp [Bind.bind, Except.bind])
    | ok results =>
      rw [hc] at h
      simp only [Bind.bind, Except.bind, pure, Except.pure, Except.ok.injEq] at h
      rw [← h]
      exact List.sorted_insertionSort _ results
  · intro pages hlen hall hdist
    have hne : pages ≠ [] := by
      intro hnil
      rw [hnil] at hlen
      exact absurd hlen (by decide)
    have happly := applyGroupLimits_blog3 pages hne hall
    have hpermS : (List.insertionSort (fun p q => scoreDescLe p q = true) pages).Perm pages :=
      List.perm_insertionSort _ pages
    have hsortS : List.Sorted (fun p q => scoreDescLe p q = true)
        (List.insertionSort (fun p q => scoreDescLe p q = true) pages) :=
      List.sorted_insertionSort _ pages
    have hlenS : (List.insertionSort (fun p q => scoreDescLe p q = true) pages).length = 10 :=
      hpermS.length_eq.trans hlen
    have hpermOut : (applyGroupLimits [("Blog", 3)] none pages).Perm
        ((List.insertionSort (fun p q => scoreDescLe p q = true) pages).take 3) := by
      rw [happly]
      exact List.perm_insertionSort _ _
    have hsub : ((List.insertionSort (fun p q => scoreDescLe p q = true) pages).take 3).Sublist
        (List.insertionSort (fun p q => scoreDescLe p q = true) pages) :=
      List.take_sublist 3 _
    have hmemout : ∀ p ∈ applyGroupLimits [("Blog", 3)] none pages, p ∈ pages := by
      intro p hp
      exact hpermS.mem_iff.mp (hsub.mem (hpermOut.mem_iff.mp hp))
    have hdistS : List.Pairwise (fun p q => p.score ≠ q.score)
        (List.insertionSort (fun p q => scoreDescLe p q = true) pages) :=
      (hpermS.pairwise_iff (fun h => Ne.symm h)).mpr hdist
    have hdistT : List.Pairwise (fun p q => p.score ≠ q.score)
        ((List.insertionSort (fun p q => scoreDescLe p q = true) pages).take 3) :=
      hdistS.sublist hsub
    have hdistOut : List.Pairwise (fun p q => p.score ≠ q.score)
        (applyGroupLimits [("Blog", 3)] none pages) :=
      (hpermOut.pairwise_iff (fun h => Ne.symm h)).mpr hdistT
    have hsortOut : List.Sorted (fun p q => pageLe p q = true)
        (applyGroupLimits [("Blog", 3)] none pages) := by
      rw [happly]
      exact List.sorted_insertionSort _ _
    refine ⟨?_, hmemout, ?_, ?_⟩
    · have := hpermOut.length_eq
      rw [List.length_take, hlenS] at this
      omega
    · -- score-descending order within the output
      have hcomb := hsortOut.and hdistOut
      refine hcomb.imp_of_mem ?_
      intro p q hp hq hpq
      obtain ⟨hle, hne2⟩ := hpq
      rw [pageLe_iff] at hle
      have hgp : p.group = "Blog" := hall p (hmemout p hp)
      have hgq : q.group = "Blog" := hall q (hmemout q hq)
      rcases hle with hg | ⟨_, hs | ⟨hseq, _⟩⟩
      · rw [hgp, hgq, listLtChar_irrefl] at hg
        exact absurd hg (by simp)
      · exact hs
      · exact absurd hseq hne2
    · -- every dropped page scores strictly below every kept page
      intro q hq hqout p hp
      have hqS : q ∈ List.insertionSort (fun p q => scoreDescLe p q = true) pages :=
        hpermS.mem_iff.mpr hq
      have hqT : q ∉ (List.insertionSort (fun p q => scoreDescLe p q = true) pages).take 3 := by
        intro hmem
        exact hqout (hpermOut.mem_iff.mpr hmem)
      have hpT : p ∈ (List.insertionSort (fun p q => scoreDescLe p q = true) pages).take 3 :=
        hpermOut.mem_iff.mp hp
      have hsplit := List.take_append_drop 3
        (List.insertionSort (fun p q => scoreDescLe p q = true) pages)
      have hqD : q ∈ (List.insertionSort (fun p q => scoreDescLe p q = true) pages).drop 3 := by
        rcases (List.mem_append.mp (by rw [hsplit]; exact hqS)) with h1 | h1
        · exact absurd h1 hqT
        · exact h1
      have hsort2 : List.Pairwise (fun p q => scoreDescLe p q = true)
          ((List.insertionSort (fun p q => scoreDescLe p q = true) pages).take 3 ++
            (List.insertionSort (fun p q => scoreDescLe p q = true) pages).drop 3) := by
        rw [hsplit]
        exact hsortS
      have hdist2 : List.Pairwise (fun p q => p.score ≠ q.score)
          ((List.insertionSort (fun p q => scoreDescLe p q = true) pages).take 3 ++
            (List.insertionSort (fun p q => scoreDescLe p q = true) pages).drop 3) := by
        rw [hsplit]
        exact hdistS
      have hrel := (List.pairwise_append.mp hsort2).2.2 p hpT q hqD
      have hne3 := (List.pairwise_append.mp hdist2).2.2 p hpT q hqD
      simp only [scoreDescLe, decide_eq_true_eq] at hrel
      omega

/-- C8 witness: the hypotheses of both conjuncts discharged on ten
concrete Blog pages with distinct scores (and, for the first conjunct, on
the concrete include/exclude configuration). -/
theorem classifier_sorted_and_group_limit_witness :
    (applyGroupLimits [("Blog", 3)] none blogPages).length = 3 ∧
    (∀ p ∈ applyGroupLimits [("Blog", 3)] none blogPages, p ∈ blogPages) ∧
    List.Pairwise (fun p q => q.score < p.score)
      (applyGroupLimits [("Blog", 3)] none blogPages) ∧
    (∀ q ∈ blogPages, q ∉ applyGroupLimits [("Blog", 3)] none blogPages →
      ∀ p ∈ applyGroupLimits [("Blog", 3)] none blogPages, q.score < p.score) :=
  classifier_sorted_and_group_limit.2 blogPages (by decide) (by decide) (by decide)


/-! ## Totality and idempotence of the normalizer (claims C9 and C10) -/

/-! ### Character-level facts about ASCII lower-casing -/

theorem char_toNat_ofNat_valid (n : Nat) (h : n.isValidChar) :
    (Char.ofNat n).toNat = n := by
  simp only [Char.ofNat, h, dite_true]
  rfl

theorem toLower_eq_self_of_not_upper {c : Char} (h : ¬(c.toNat ≥ 65 ∧ c.toNat ≤ 90)) :
    c.toLower = c := by
  unfold Char.toLower
  rw [if_neg h]

theorem toNat_toLower_of_upper {c : Char} (h : c.toNat ≥ 65 ∧ c.toNat ≤ 90) :
    c.toLower.toNat = c.toNat + 32 := by
  unfold Char.toLower
  rw [if_pos h]
  exact char_toNat_ofNat_valid _ (Or.inl (by omega))

theorem toLower_toLower (c : Char) : c.toLower.toLower = c.toLower := by
  by_cases h : c.toNat ≥ 65 ∧ c.toNat ≤ 90
  · have h2 := toNat_toLower_of_upper h
    exact toLower_eq_self_of_not_upper (by omega)
  · rw [toLower_eq_self_of_not_upper h, toLower_eq_self_of_not_upper h]

theorem toLower_eq_of_toNat_lt {c x : Char} (hx : x.toNat < 97) (h : c.toLower = x) :
    c = x := by
  by_cases hu : c.toNat ≥ 65 ∧ c.toNat ≤ 90
  · have h1 := toNat_toLower_of_upper hu
    rw [h] at h1
    omega
  · rw [toLower_eq_self_of_not_upper hu] at h
    exact h

theorem char_eq_iff_toNat {c x : Char} : c = x ↔ c.toNat = x.toNat := by
  constructor
  · intro h; rw [h]
  · intro h
    apply Char.eq_of_val_eq
    apply UInt32.eq_of_toBitVec_eq
    apply BitVec.eq_of_toNat_eq
    exact h

theorem char_le_iff_toNat {c x : Char} : c ≤ x ↔ c.toNat ≤ x.toNat := Iff.rfl

theorem isUpper_iff_toNat {c : Char} : c.isUpper = true ↔ (65 ≤ c.toNat ∧ c.toNat ≤ 90) := by
  simp only [Char.isUpper, Bool.and_eq_true, decide_eq_true_eq]
  constructor
  · rintro ⟨h1, h2⟩
    exact ⟨h1, h2⟩
  · rintro ⟨h1, h2⟩
    exact ⟨h1, h2⟩

theorem isLower_iff_toNat {c : Char} : c.isLower = true ↔ (97 ≤ c.toNat ∧ c.toNat ≤ 122) := by
  simp only [Char.isLower, Bool.and_eq_true, decide_eq_true_eq]
  exact Iff.rfl

theorem toLower_upper_range {c : Char} (h : 65 ≤ c.toNat ∧ c.toNat ≤ 90) :
    97 ≤ c.toLower.toNat ∧ c.toLower.toNat ≤ 122 := by
  have := toNat_toLower_of_upper h
  omega

theorem isAlpha_toLower {c : Char} (h : c.isAlpha = true) : c.toLower.isAlpha = true := by
  simp only [Char.isAlpha, Bool.or_eq_true] at h ⊢
  rcases h with h | h
  · right
    rw [isUpper_iff_toNat] at h
    exact isLower_iff_toNat.mpr (toLower_upper_range h)
  · right
    rw [isLower_iff_toNat] at h
    rw [toLower_eq_self_of_not_upper (by omega)]
    exact isLower_iff_toNat.mpr h

theorem isSchemeChar_toLower {c : Char} (h : isSchemeChar c = true) :
    isSchemeChar c.toLower = true := by
  simp only [isSchemeChar, Bool.or_eq_true] at h ⊢
  rcases h with ((((h | h) | h) | h) | h)
  · exact Or.inl (Or.inl (Or.inl (Or.inl (isAlpha_toLower h))))
  · refine Or.inl (Or.inl (Or.inl (Or.inr ?_)))
    simp only [Char.isDigit, Bool.and_eq_true, decide_eq_true_eq] at h ⊢
    have h48 : 48 ≤ c.toNat := h.1
    have h57 : c.toNat ≤ 57 := h.2
    rw [toLower_eq_self_of_not_upper (by omega)]
    exact h
  · rw [decide_eq_true_eq] at h
    subst h
    exact Or.inl (Or.inl (Or.inr (by decide)))
  · rw [decide_eq_true_eq] at h
    subst h
    exact Or.inl (Or.inr (by decide))
  · rw [decide_eq_true_eq] at h
    subst h
    exact Or.inr (by decide)

theorem isPySpace_eq_false_of_ge {c : Char} (h : 33 ≤ c.toNat) : isPySpace c = false := by
  simp only [isPySpace, Bool.or_eq_false_iff, decide_eq_false_iff_not]
  refine ⟨⟨⟨⟨⟨⟨⟨⟨⟨?_, ?_⟩, ?_⟩, ?_⟩, ?_⟩, ?_⟩, ?_⟩, ?_⟩, ?_⟩, ?_⟩ <;>
    · intro hq
      subst hq
      exact absurd h (by decide)

theorem isNetlocDelim_eq_false_of_ge {c : Char} (h : 65 ≤ c.toNat) :
    isNetlocDelim c = false := by
  simp only [isNetlocDelim, Bool.or_eq_false_iff, decide_eq_false_iff_not]
  refine ⟨⟨?_, ?_⟩, ?_⟩ <;>
    · intro hq
      subst hq
      exact absurd h (by decide)

theorem isPySpace_toLower (c : Char) : isPySpace c.toLower = isPySpace c := by
  by_cases hu : c.toNat ≥ 65 ∧ c.toNat ≤ 90
  · have h1 := toNat_toLower_of_upper hu
    rw [isPySpace_eq_false_of_ge (by omega), isPySpace_eq_false_of_ge (by omega)]
  · rw [toLower_eq_self_of_not_upper hu]

theorem isNetlocDelim_toLower (c : Char) : isNetlocDelim c.toLower = isNetlocDelim c := by
  by_cases hu : c.toNat ≥ 65 ∧ c.toNat ≤ 90
  · have h1 := toNat_toLower_of_upper hu
    rw [isNetlocDelim_eq_false_of_ge (by omega), isNetlocDelim_eq_false_of_ge (by omega)]
  · rw [toLower_eq_self_of_not_upper hu]

/-! ### List surgery: splitFirst, takeWhile, dropWhile, strip -/

theorem splitFirst_cons_pos (p : Char → Bool) (c : Char) (cs : List Char)
    (h : p c = true) : splitFirst p (c :: cs) = some ([], cs) := by
  simp [splitFirst, h]

theorem splitFirst_cons_neg (p : Char → Bool) (c : Char) (cs : List Char)
    (h : p c = false) :
    splitFirst p (c :: cs) = (splitFirst p cs).map (fun ab => (c :: ab.1, ab.2)) := by
  simp [splitFirst, h]

theorem splitFirst_eq_none_iff (p : Char → Bool) (l : List Char) :
    splitFirst p l = none ↔ ∀ c ∈ l, p c = false := by
  induction l with
  | nil => simp [splitFirst]
  | cons c cs ih =>
    rcases hp : p c with _ | _
    · rw [splitFirst_cons_neg p c cs hp]
      cases hrec : splitFirst p cs with
      | none =>
        simp only [Option.map_none', List.mem_cons, true_iff]
        intro d hd
        rcases hd with rfl | hd
        · exact hp
        · exact (ih.mp hrec) d hd
      | some ab =>
        simp only [Option.map_some']
        constructor
        · intro h
          exact absurd h (by simp)
        · intro h
          have h2 : splitFirst p cs = none :=
            ih.mpr (fun d hd => h d (List.mem_cons_of_mem _ hd))
          rw [hrec] at h2
          exact absurd h2 (by simp)
    · rw [splitFirst_cons_pos p c cs hp]
      constructor
      · intro h
        exact absurd h (by simp)
      · intro h
        exact absurd (h c (by simp)) (by simp [hp])

theorem splitFirst_eq_some (p : Char → Bool) (l a b : List Char)
    (h : splitFirst p l = some (a, b)) :
    ∃ x, l = a ++ x :: b ∧ p x = true ∧ ∀ c ∈ a, p c = false := by
  induction l generalizing a with
  | nil => simp [splitFirst] at h
  | cons c cs ih =>
    rcases hp : p c with _ | _
    · rw [splitFirst_cons_neg p c cs hp] at h
      cases hrec : splitFirst p cs with
      | none =>
        rw [hrec] at h
        exact absurd h (by simp)
      | some ab =>
        rw [hrec, Option.map_some'] at h
        injection h with h2
        obtain ⟨rfl, rfl⟩ : a = c :: ab.1 ∧ b = ab.2 :=
          ⟨congrArg Prod.fst h2.symm, congrArg Prod.snd h2.symm⟩
        obtain ⟨x, hx1, hx2, hx3⟩ := ih ab.1 (by rw [hrec])
        refine ⟨x, by simp [hx1], hx2, ?_⟩
        intro d hd
        rcases List.mem_cons.mp hd with rfl | hd
        · exact hp
        · exact hx3 d hd
    · rw [splitFirst_cons_pos p c cs hp] at h
      injection h with h2
      obtain ⟨rfl, rfl⟩ : a = [] ∧ b = cs :=
        ⟨congrArg Prod.fst h2.symm, congrArg Prod.snd h2.symm⟩
      exact ⟨c, rfl, hp, by simp⟩

theorem splitFirst_append_cons (p : Char → Bool) (a : List Char) (x : Char)
    (b : List Char) (ha : ∀ c ∈ a, p c = false) (hx : p x = true) :
    splitFirst p (a ++ x :: b) = some (a, b) := by
  induction a with
  | nil => simp [splitFirst, hx]
  | cons c cs ih =>
    have hc : p c = false := ha c (by simp)
    rw [List.cons_append, splitFirst_cons_neg p c _ hc,
      ih (fun d hd => ha d (by simp [hd]))]
    rfl

theorem takeWhile_append_cons (q : Char → Bool) (a : List Char) (x : Char)
    (b : List Char) (ha : ∀ c ∈ a, q c = true) (hx : q x = false) :
    (a ++ x :: b).takeWhile q = a ∧ (a ++ x :: b).dropWhile q = x :: b := by
  rw [List.takeWhile_append_of_pos ha, List.dropWhile_append_of_pos ha]
  constructor
  · rw [List.takeWhile_cons, hx]
    simp
  · rw [List.dropWhile_cons, hx]
    simp

theorem dropWhile_cons_head (q : Char → Bool) (l : List Char) (x : Char)
    (r : List Char) (h : l.dropWhile q = x :: r) : q x = false := by
  induction l with
  | nil => simp [List.dropWhile] at h
  | cons c cs ih =>
    rw [List.dropWhile_cons] at h
    rcases hq : q c with _ | _
    · rw [hq] at h
      simp only [Bool.false_eq_true, if_false] at h
      injection h with h1 _
      rw [← h1]
      exact hq
    · rw [hq] at h
      simp only [if_true] at h
      exact ih h

theorem dropWhile_eq_self_of_all (q : Char → Bool) (l : List Char)
    (h : ∀ c ∈ l, q c = false) : l.dropWhile q = l := by
  cases l with
  | nil => rfl
  | cons c cs => simp [List.dropWhile_cons, h c (by simp)]

theorem pyStrip_eq_self (l : List Char) (h : ∀ c ∈ l, isPySpace c = false) :
    pyStrip l = l := by
  unfold pyStrip
  rw [dropWhile_eq_self_of_all _ _ h]
  rw [dropWhile_eq_self_of_all _ _ (fun c hc => h c (List.mem_reverse.mp hc))]
  exact List.reverse_reverse l

theorem removeUnsafeBytes_eq_self (l : List Char) (h : ∀ c ∈ l, isPySpace c = false) :
    removeUnsafeBytes l = l := by
  unfold removeUnsafeBytes
  rw [List.filter_eq_self]
  intro c hc
  have hsp := h c hc
  simp only [isPySpace, Bool.or_eq_false_iff, decide_eq_false_iff_not] at hsp
  obtain ⟨⟨⟨⟨⟨⟨⟨⟨⟨_, htab⟩, hnl⟩, _⟩, _⟩, hcr⟩, _⟩, _⟩, _⟩, _⟩ := hsp
  simp [htab, hcr, hnl]
/-! ### pyLower, rstripSlashes, membership transport -/

theorem pyLower_idem (l : List Char) : pyLower (pyLower l) = pyLower l := by
  unfold pyLower
  rw [List.map_map]
  exact List.map_congr_left (fun c _ => toLower_toLower c)

theorem mem_pyLower_low {l : List Char} {x : Char}
    (hx : ¬(65 ≤ x.toNat ∧ x.toNat ≤ 90)) (hx2 : x.toNat < 97) :
    x ∈ pyLower l ↔ x ∈ l := by
  unfold pyLower
  rw [List.mem_map]
  constructor
  · rintro ⟨c, hc, hcx⟩
    rwa [toLower_eq_of_toNat_lt hx2 hcx] at hc
  · intro h
    exact ⟨x, h, toLower_eq_self_of_not_upper hx⟩

theorem pyLower_pred {l : List Char} {P : Char → Bool}
    (hP : ∀ c, P c.toLower = P c) (h : ∀ c ∈ l, P c = false) :
    ∀ c ∈ pyLower l, P c = false := by
  intro c hc
  unfold pyLower at hc
  rw [List.mem_map] at hc
  obtain ⟨d, hd, rfl⟩ := hc
  rw [hP d]
  exact h d hd

theorem rstripSlashes_eq_nil_iff (l : List Char) :
    rstripSlashes l = [] ↔ ∀ c ∈ l, c = '/' := by
  unfold rstripSlashes
  rw [List.reverse_eq_nil_iff, List.dropWhile_eq_nil_iff]
  constructor
  · intro h c hc
    exact of_decide_eq_true (h c (List.mem_reverse.mpr hc))
  · intro h c hc
    exact decide_eq_true (h c (List.mem_reverse.mp hc))

theorem rstripSlashes_getLast_ne (l : List Char) (h : rstripSlashes l ≠ []) :
    (rstripSlashes l).getLast? ≠ some '/' := by
  unfold rstripSlashes at *
  rw [List.getLast?_reverse]
  cases hd : l.reverse.dropWhile (fun c => decide (c = '/')) with
  | nil =>
    rw [hd] at h
    simp at h
  | cons a r =>
    have ha := dropWhile_cons_head _ _ _ _ hd
    simp only [List.head?_cons, ne_eq, Option.some_inj]
    intro hq
    rw [hq] at ha
    simp at ha

theorem rstripSlashes_prefix (l : List Char) : rstripSlashes l <+: l := by
  unfold rstripSlashes
  have h : List.dropWhile (fun c => decide (c = '/')) l.reverse <:+ l.reverse :=
    List.dropWhile_suffix _
  have h2 := List.reverse_prefix.mpr h
  rwa [List.reverse_reverse] at h2

theorem take2_of_prefix {s l : List Char} (h : s <+: l) (h2 : l.take 2 ≠ ['/', '/']) :
    s.take 2 ≠ ['/', '/'] := by
  obtain ⟨t, rfl⟩ := h
  intro hs
  by_cases hlen : 2 ≤ s.length
  · rw [List.take_append_of_le_length hlen] at h2
    exact h2 hs
  · have hall : s.take 2 = s := List.take_of_length_le (by omega)
    rw [hall] at hs
    rw [hs] at hlen
    simp at hlen

theorem mem_url1 {l : List Char} {c : Char} (h : c ∈ removeUnsafeBytes (pyStrip l)) :
    c ∈ l := by
  have h1 : c ∈ pyStrip l := List.mem_of_mem_filter h
  unfold pyStrip at h1
  have h2 := List.mem_reverse.mp h1
  have h3 := (List.dropWhile_sublist _).subset h2
  have h4 := List.mem_reverse.mp h3
  exact (List.dropWhile_sublist _).subset h4

/-! ### splitScheme characterization -/

theorem splitScheme_append (S r : List Char) (hS : S ≠ [])
    (hhead : ∀ c0 rest, S = c0 :: rest → c0.isAlpha = true)
    (hall : S.all isSchemeChar = true) :
    splitScheme (S ++ ':' :: r) = (pyLower S, r) := by
  unfold splitScheme
  have hnc : ∀ c ∈ S, (fun c => decide (c = ':')) c = false := by
    intro c hc
    have hsc := List.all_eq_true.mp hall c hc
    simp only [decide_eq_false_iff_not]
    intro hq
    rw [hq] at hsc
    exact absurd hsc (by decide)
  rw [splitFirst_append_cons _ _ _ _ hnc (by simp)]
  cases S with
  | nil => exact absurd rfl hS
  | cons c0 rest =>
    have ha := hhead c0 rest rfl
    simp [ha, hall]

theorem splitScheme_eq (url s r : List Char) (h : splitScheme url = (s, r)) :
    (s = [] ∧ r = url) ∨
    (∃ before, url = before ++ ':' :: r ∧ before ≠ [] ∧
      (∀ c0 rest, before = c0 :: rest → c0.isAlpha = true) ∧
      before.all isSchemeChar = true ∧ s = pyLower before) := by
  unfold splitScheme at h
  cases hsp : splitFirst (fun c => decide (c = ':')) url with
  | none =>
    rw [hsp] at h
    injection h with h1 h2
    exact Or.inl ⟨h1.symm, h2.symm⟩
  | some ab =>
    obtain ⟨b1, b2⟩ := ab
    rw [hsp] at h
    obtain ⟨x, hx1, hx2, hx3⟩ := splitFirst_eq_some _ _ _ _ hsp
    have hxc : x = ':' := of_decide_eq_true hx2
    subst hxc
    dsimp only at h hx1
    cases b1 with
    | nil =>
      dsimp only at h
      injection h with h1 h2
      exact Or.inl ⟨h1.symm, h2.symm⟩
    | cons c0 rest =>
      dsimp only at h
      rcases hcond : (c0.isAlpha && (c0 :: rest).all isSchemeChar) with _ | _
      · rw [hcond] at h
        simp only [Bool.false_eq_true, if_false] at h
        injection h with h1 h2
        exact Or.inl ⟨h1.symm, h2.symm⟩
      · rw [hcond] at h
        simp only [if_true] at h
        injection h with h1 h2
        simp only [Bool.and_eq_true] at hcond
        subst h2
        refine Or.inr ⟨c0 :: rest, hx1, by simp, ?_, hcond.2, h1.symm⟩
        intro d ds hd
        injection hd with hd1 _
        rw [← hd1]
        exact hcond.1

/-! ### Reparsing a rebuilt URL -/

theorem pyUrlsplit_authority (S N t Q : List Char)
    (hS : S ≠ [])
    (hShead : ∀ c0 rest, S = c0 :: rest → c0.isAlpha = true)
    (hSall : S.all isSchemeChar = true)
    (hNchar : ∀ c ∈ N, isNetlocDelim c = false)
    (hNbr : ((N.contains '[' && !N.contains ']') ||
             (N.contains ']' && !N.contains '[')) = false)
    (htchar : ∀ c ∈ t, c ≠ '#' ∧ c ≠ '?')
    (hQchar : ∀ c ∈ Q, c ≠ '#')
    (hnosp : ∀ c ∈ S ++ ':' :: '/' :: '/' ::
        (N ++ '/' :: (t ++ (if Q = [] then [] else '?' :: Q))), isPySpace c = false) :
    pyUrlsplit (S ++ ':' :: '/' :: '/' ::
        (N ++ '/' :: (t ++ (if Q = [] then [] else '?' :: Q)))) =
      Except.ok ⟨pyLower S, N, '/' :: t, Q, []⟩ := by
  by_cases hQ : Q = []
  · subst hQ
    have hqp : (if ([] : List Char) = [] then ([] : List Char) else '?' :: []) = [] := rfl
    rw [hqp, List.append_nil] at hnosp ⊢
    unfold pyUrlsplit
    dsimp only
    rw [removeUnsafeBytes_eq_self _ hnosp]
    rw [splitScheme_append S _ hS hShead hSall]
    dsimp only
    rw [if_pos (show (('/' : Char) :: '/' :: (N ++ '/' :: t)).take 2 = ['/', '/'] from rfl)]
    rw [show (('/' : Char) :: '/' :: (N ++ '/' :: t)).drop 2 = N ++ '/' :: t from rfl]
    have hnl := takeWhile_append_cons (fun c => !isNetlocDelim c) N '/' t
      (fun c hc => by simp [hNchar c hc]) (by simp [isNetlocDelim])
    rw [hnl.1, hnl.2]
    rw [hNbr]
    simp only [Bool.false_eq_true, if_false]
    have hfrag : splitFirst (fun c => decide (c = '#')) ('/' :: t) = none := by
      apply (splitFirst_eq_none_iff _ _).mpr
      intro c hc
      simp only [decide_eq_false_iff_not]
      rcases List.mem_cons.mp hc with rfl | hc
      · decide
      · exact (htchar c hc).1
    rw [hfrag]
    dsimp only
    have hquery : splitFirst (fun c => decide (c = '?')) ('/' :: t) = none := by
      apply (splitFirst_eq_none_iff _ _).mpr
      intro c hc
      simp only [decide_eq_false_iff_not]
      rcases List.mem_cons.mp hc with rfl | hc
      · decide
      · exact (htchar c hc).2
    rw [hquery]
  · rw [if_neg hQ] at hnosp ⊢
    unfold pyUrlsplit
    dsimp only
    rw [removeUnsafeBytes_eq_self _ hnosp]
    rw [splitScheme_append S _ hS hShead hSall]
    dsimp only
    rw [if_pos (show (('/' : Char) :: '/' :: (N ++ '/' :: (t ++ '?' :: Q))).take 2 =
      ['/', '/'] from rfl)]
    rw [show (('/' : Char) :: '/' :: (N ++ '/' :: (t ++ '?' :: Q))).drop 2 =
      N ++ '/' :: (t ++ '?' :: Q) from rfl]
    have hnl := takeWhile_append_cons (fun c => !isNetlocDelim c) N '/' (t ++ '?' :: Q)
      (fun c hc => by simp [hNchar c hc]) (by simp [isNetlocDelim])
    rw [hnl.1, hnl.2]
    rw [hNbr]
    simp only [Bool.false_eq_true, if_false]
    have hfrag : splitFirst (fun c => decide (c = '#')) ('/' :: (t ++ '?' :: Q)) = none := by
      apply (splitFirst_eq_none_iff _ _).mpr
      intro c hc
      simp only [decide_eq_false_iff_not]
      rcases List.mem_cons.mp hc with rfl | hc
      · decide
      · rcases List.mem_append.mp hc with hc | hc
        · exact (htchar c hc).1
        · rcases List.mem_cons.mp hc with rfl | hc
          · decide
          · exact hQchar c hc
    rw [hfrag]
    dsimp only
    have hquery : splitFirst (fun c => decide (c = '?')) ('/' :: (t ++ '?' :: Q)) =
        some ('/' :: t, Q) := by
      rw [show ('/' : Char) :: (t ++ '?' :: Q) = ('/' :: t) ++ '?' :: Q from rfl]
      apply splitFirst_append_cons
      · intro c hc
        simp only [decide_eq_false_iff_not]
        rcases List.mem_cons.mp hc with rfl | hc
        · decide
        · exact (htchar c hc).2
      · simp
    rw [hquery]

theorem take2_append_ne (T qp : List Char) (hT : T ≠ [])
    (hT2 : T.take 2 ≠ ['/', '/'])
    (hqp : qp = [] ∨ ∃ qs, qp = '?' :: qs) :
    (T ++ qp).take 2 ≠ ['/', '/'] := by
  cases T with
  | nil => exact absurd rfl hT
  | cons a T1 =>
    cases T1 with
    | nil =>
      rcases hqp with rfl | ⟨qs, rfl⟩
      · intro h
        apply hT2
        simp at h
      · intro h
        simp only [List.cons_append, List.nil_append] at h
        injection h with h1 h2
        injection h2 with h2 _
        exact absurd h2 (by decide)
    | cons b T2 =>
      intro h
      simp only [List.cons_append] at h
      injection h with h1 h2
      injection h2 with h2 _
      apply hT2
      rw [h1, h2]
      rfl

theorem pyUrlsplit_plain (S T Q : List Char)
    (hS : S ≠ [])
    (hShead : ∀ c0 rest, S = c0 :: rest → c0.isAlpha = true)
    (hSall : S.all isSchemeChar = true)
    (hT : T ≠ [])
    (hT2 : T.take 2 ≠ ['/', '/'])
    (hTchar : ∀ c ∈ T, c ≠ '#' ∧ c ≠ '?')
    (hQchar : ∀ c ∈ Q, c ≠ '#')
    (hnosp : ∀ c ∈ S ++ ':' :: (T ++ (if Q = [] then [] else '?' :: Q)),
      isPySpace c = false) :
    pyUrlsplit (S ++ ':' :: (T ++ (if Q = [] then [] else '?' :: Q))) =
      Except.ok ⟨pyLower S, [], T, Q, []⟩ := by
  have hqpform : (if Q = [] then ([] : List Char) else '?' :: Q) = [] ∨
      ∃ qs, (if Q = [] then ([] : List Char) else '?' :: Q) = '?' :: qs := by
    by_cases hQ : Q = []
    · exact Or.inl (by rw [if_pos hQ])
    · exact Or.inr ⟨Q, by rw [if_neg hQ]⟩
  have htk := take2_append_ne T _ hT hT2 hqpform
  by_cases hQ : Q = []
  · subst hQ
    have hqp : (if ([] : List Char) = [] then ([] : List Char) else '?' :: []) = [] := rfl
    rw [hqp, List.append_nil] at hnosp htk ⊢
    unfold pyUrlsplit
    dsimp only
    rw [removeUnsafeBytes_eq_self _ hnosp]
    rw [splitScheme_append S _ hS hShead hSall]
    dsimp only
    rw [if_neg htk]
    have hbr : ((List.contains [] '[' && !List.contains [] ']') ||
        (List.contains [] ']' && !List.contains [] '[')) = false := rfl
    rw [hbr]
    simp only [Bool.false_eq_true, if_false]
    have hfrag : splitFirst (fun c => decide (c = '#')) T = none := by
      apply (splitFirst_eq_none_iff _ _).mpr
      intro c hc
      simp only [decide_eq_false_iff_not]
      exact (hTchar c hc).1
    rw [hfrag]
    dsimp only
    have hquery : splitFirst (fun c => decide (c = '?')) T = none := by
      apply (splitFirst_eq_none_iff _ _).mpr
      intro c hc
      simp only [decide_eq_false_iff_not]
      exact (hTchar c hc).2
    rw [hquery]
  · rw [if_neg hQ] at hnosp htk ⊢
    unfold pyUrlsplit
    dsimp only
    rw [removeUnsafeBytes_eq_self _ hnosp]
    rw [splitScheme_append S _ hS hShead hSall]
    dsimp only
    rw [if_neg htk]
    have hbr : ((List.contains [] '[' && !List.contains [] ']') ||
        (List.contains [] ']' && !List.contains [] '[')) = false := rfl
    rw [hbr]
    simp only [Bool.false_eq_true, if_false]
    have hfrag : splitFirst (fun c => decide (c = '#')) (T ++ '?' :: Q) = none := by
      apply (splitFirst_eq_none_iff _ _).mpr
      intro c hc
      simp only [decide_eq_false_iff_not]
      rcases List.mem_append.mp hc with hc | hc
      · exact (hTchar c hc).1
      · rcases List.mem_cons.mp hc with rfl | hc
        · decide
        · exact hQchar c hc
    rw [hfrag]
    dsimp only
    have hquery : splitFirst (fun c => decide (c = '?')) (T ++ '?' :: Q) =
        some (T, Q) := by
      apply splitFirst_append_cons
      · intro c hc
        simp only [decide_eq_false_iff_not]
        exact (hTchar c hc).2
      · simp
    rw [hquery]

theorem pyUrlparse_of_split (url : List Char) (s : SplitParts)
    (h : pyUrlsplit url = Except.ok s) (hsemi : s.path.contains ';' = false) :
    pyUrlparse url = Except.ok ⟨s.scheme, s.netloc, s.path, [], s.query, s.fragment⟩ := by
  unfold pyUrlparse
  simp only [Bind.bind, Except.bind, h]
  rw [hsemi, Bool.and_false]
  simp [pure, Except.pure]

theorem normalizeParts_fixed (p : ParseParts)
    (hS : p.scheme ≠ []) (hShttp : p.scheme ≠ "http".data)
    (hN : pyLower p.netloc = p.netloc)
    (hT : p.path ≠ [])
    (hTtrail : p.path = ['/'] ∨ p.path.getLast? ≠ some '/')
    (hP : p.params = []) (hF : p.fragment = []) :
    normalizeParts true true true p = p := by
  obtain ⟨S, N, T, P, Q, F⟩ := p
  dsimp only at hS hShttp hN hT hTtrail hP hF
  subst hP
  subst hF
  unfold normalizeParts
  dsimp only
  rw [if_neg hS, hN]
  have hsch : (if (true = true) ∧ (S = "http".data ∨ S = "https".data) then
      "https".data else S) = S := by
    by_cases hs : S = "https".data
    · rw [if_pos ⟨rfl, Or.inr hs⟩, hs]
    · rw [if_neg]
      rintro ⟨_, h | h⟩
      · exact hShttp h
      · exact hs h
  rw [hsch]
  rw [if_neg hT]
  have hpath : (if (true = true) ∧ ¬T = ['/'] ∧ T.getLast? = some '/' then
      rstripSlashes T else T) = T := by
    rcases hTtrail with h | h
    · rw [if_neg]
      rintro ⟨_, h2, _⟩
      exact h2 h
    · rw [if_neg]
      rintro ⟨_, _, h2⟩
      exact h h2
  rw [hpath]
  rfl

theorem schemeChar_not_space {c : Char} (h : isSchemeChar c = true) :
    isPySpace c = false := by
  simp only [isSchemeChar, Bool.or_eq_true] at h
  rcases h with ((((h | h) | h) | h) | h)
  · simp only [Char.isAlpha, Bool.or_eq_true] at h
    rcases h with h | h
    · exact isPySpace_eq_false_of_ge (by have := isUpper_iff_toNat.mp h; omega)
    · exact isPySpace_eq_false_of_ge (by have := isLower_iff_toNat.mp h; omega)
  · simp only [Char.isDigit, Bool.and_eq_true, decide_eq_true_eq] at h
    have h48 : 48 ≤ c.toNat := h.1
    exact isPySpace_eq_false_of_ge (by omega)
  · rw [decide_eq_true_eq] at h
    subst h
    decide
  · rw [decide_eq_true_eq] at h
    subst h
    decide
  · rw [decide_eq_true_eq] at h
    subst h
    decide

/-! ### The shapes produced by pyUrlunsplit -/

theorem qp_form (Q u : List Char) :
    (if Q ≠ [] then u ++ '?' :: Q else u) =
      u ++ (if Q = [] then [] else '?' :: Q) := by
  by_cases hQ : Q = []
  · simp [hQ]
  · simp [hQ]

theorem pyUrlunsplit_authority_form (S N t Q : List Char) (hS : S ≠ [])
    (hcond : N ≠ [] ∨ (S ≠ [] ∧ usesNetloc.contains S = true ∧
      ('/' :: t).take 2 ≠ ['/', '/'])) :
    pyUrlunsplit S N ('/' :: t) Q [] =
      S ++ ':' :: '/' :: '/' :: (N ++ '/' :: (t ++ (if Q = [] then [] else '?' :: Q))) := by
  unfold pyUrlunsplit
  dsimp only
  rw [if_pos hcond]
  rw [if_neg (show ¬('/' :: t ≠ [] ∧ ('/' :: t).take 1 ≠ ['/']) by
    rintro ⟨_, h⟩
    exact h rfl)]
  rw [if_pos hS]
  rw [qp_form Q _]
  rw [if_neg (show ¬(([] : List Char) ≠ []) by
    intro h
    exact h rfl)]
  simp [List.append_assoc]

theorem pyUrlunsplit_plain_form (S T Q : List Char) (hS : S ≠ [])
    (hcond : ¬((S ≠ [] ∧ usesNetloc.contains S = true ∧ T.take 2 ≠ ['/', '/']))) :
    pyUrlunsplit S [] T Q [] =
      S ++ ':' :: (T ++ (if Q = [] then [] else '?' :: Q)) := by
  unfold pyUrlunsplit
  dsimp only
  rw [if_neg (show ¬(([] : List Char) ≠ [] ∨ (S ≠ [] ∧ usesNetloc.contains S = true ∧
      T.take 2 ≠ ['/', '/'])) by
    rintro (h | h)
    · exact h rfl
    · exact hcond h)]
  rw [if_pos hS]
  rw [qp_form Q _]
  rw [if_neg (show ¬(([] : List Char) ≠ []) by
    intro h
    exact h rfl)]
  simp [List.append_assoc]

/-! ### No-whitespace propagation and the stability theorem -/

theorem contains_eq_false_of_forall (l : List Char) (x : Char)
    (h : ∀ c ∈ l, c ≠ x) : l.contains x = false := by
  rw [← Bool.not_eq_true]
  intro hc
  exact h x (List.mem_of_elem_eq_true hc) rfl

theorem nosp_append {l1 l2 : List Char} (h1 : ∀ c ∈ l1, isPySpace c = false)
    (h2 : ∀ c ∈ l2, isPySpace c = false) :
    ∀ c ∈ l1 ++ l2, isPySpace c = false := by
  intro c hc
  rcases List.mem_append.mp hc with hc | hc
  · exact h1 c hc
  · exact h2 c hc

theorem nosp_cons {x : Char} {l : List Char} (hx : isPySpace x = false)
    (h : ∀ c ∈ l, isPySpace c = false) :
    ∀ c ∈ x :: l, isPySpace c = false := by
  intro c hc
  rcases List.mem_cons.mp hc with rfl | hc
  · exact hx
  · exact h c hc

theorem nosp_scheme {S : List Char} (hSall : S.all isSchemeChar = true) :
    ∀ c ∈ S, isPySpace c = false :=
  fun c hc => schemeChar_not_space (List.all_eq_true.mp hSall c hc)

theorem nosp_qp {Q : List Char} (hQ : ∀ c ∈ Q, isPySpace c = false) :
    ∀ c ∈ (if Q = [] then ([] : List Char) else '?' :: Q), isPySpace c = false := by
  by_cases h : Q = []
  · rw [if_pos h]
    intro c hc
    simp at hc
  · rw [if_neg h]
    exact nosp_cons (by decide) hQ

theorem pyUrlunsplit_form_general (S N T Q : List Char) (hS : S ≠ []) (hT : T ≠ [])
    (hcond : N ≠ [] ∨ (S ≠ [] ∧ usesNetloc.contains S = true ∧ T.take 2 ≠ ['/', '/'])) :
    ∃ t, ('/' :: t = T ∨ ('/' :: t = '/' :: T ∧ T.take 1 ≠ ['/'])) ∧
      pyUrlunsplit S N T Q [] =
        S ++ ':' :: '/' :: '/' ::
          (N ++ '/' :: (t ++ (if Q = [] then [] else '?' :: Q))) := by
  by_cases hT1 : T.take 1 = ['/']
  · obtain ⟨t, rfl⟩ : ∃ t, T = '/' :: t := by
      cases T with
      | nil => exact absurd rfl hT
      | cons a T1 =>
        rw [show (a :: T1).take 1 = [a] from rfl] at hT1
        injection hT1 with ha _
        exact ⟨T1, by rw [ha]⟩
    exact ⟨t, Or.inl rfl, pyUrlunsplit_authority_form S N t Q hS hcond⟩
  · refine ⟨T, Or.inr ⟨rfl, hT1⟩, ?_⟩
    unfold pyUrlunsplit
    dsimp only
    rw [if_pos hcond]
    rw [if_pos (show T ≠ [] ∧ T.take 1 ≠ ['/'] from ⟨hT, hT1⟩)]
    rw [if_pos hS]
    rw [qp_form Q _]
    rw [if_neg (show ¬(([] : List Char) ≠ []) by
      intro h
      exact h rfl)]
    simp [List.append_assoc]

theorem slashed_trail (T t : List Char) (hT : T ≠ [])
    (hform : '/' :: t = T ∨ ('/' :: t = '/' :: T ∧ T.take 1 ≠ ['/']))
    (hTtrail : T = ['/'] ∨ T.getLast? ≠ some '/') :
    '/' :: t = ['/'] ∨ ('/' :: t).getLast? ≠ some '/' := by
  rcases hform with h | ⟨h, h1⟩
  · rw [h]
    exact hTtrail
  · injection h with _ h2
    subst h2
    cases t with
    | nil => exact absurd rfl hT
    | cons a T1 =>
      rcases hTtrail with h3 | h3
      · exfalso
        apply h1
        rw [h3]
        rfl
      · right
        rw [List.getLast?_cons_cons]
        exact h3

theorem slashed_take2 (T t : List Char) (hT : T ≠ [])
    (hform : '/' :: t = T ∨ ('/' :: t = '/' :: T ∧ T.take 1 ≠ ['/']))
    (hTT : T.take 2 ≠ ['/', '/']) :
    ('/' :: t).take 2 ≠ ['/', '/'] := by
  rcases hform with h | ⟨h, h1⟩
  · rw [h]
    exact hTT
  · injection h with _ h2
    subst h2
    cases t with
    | nil => exact absurd rfl hT
    | cons a T1 =>
      intro hq
      rw [show (('/' : Char) :: a :: T1).take 2 = ['/', a] from rfl] at hq
      injection hq with _ hq
      injection hq with hq _
      apply h1
      rw [show (a :: T1).take 1 = [a] from rfl, hq]

theorem slashed_chars (T t : List Char)
    (hform : '/' :: t = T ∨ ('/' :: t = '/' :: T ∧ T.take 1 ≠ ['/']))
    (hTchar : ∀ c ∈ T, c ≠ '#' ∧ c ≠ '?' ∧ c ≠ ';' ∧ isPySpace c = false) :
    ∀ c ∈ t, c ≠ '#' ∧ c ≠ '?' ∧ c ≠ ';' ∧ isPySpace c = false := by
  rcases hform with h | ⟨h, _⟩
  · intro c hc
    exact hTchar c (by rw [← h]; exact List.mem_cons_of_mem _ hc)
  · injection h with _ h2
    subst h2
    exact hTchar

theorem rebuilt_normalize_fixed (S N T Q : List Char)
    (hS : S ≠ [])
    (hShead : ∀ c0 rest, S = c0 :: rest → c0.isAlpha = true)
    (hSall : S.all isSchemeChar = true)
    (hSlow : pyLower S = S)
    (hShttp : S ≠ "http".data)
    (hNchar : ∀ c ∈ N, isNetlocDelim c = false ∧ isPySpace c = false)
    (hNlow : pyLower N = N)
    (hNbr : ((N.contains '[' && !N.contains ']') ||
             (N.contains ']' && !N.contains '[')) = false)
    (hT : T ≠ [])
    (hTchar : ∀ c ∈ T, c ≠ '#' ∧ c ≠ '?' ∧ c ≠ ';' ∧ isPySpace c = false)
    (hTtrail : T = ['/'] ∨ T.getLast? ≠ some '/')
    (hTT : N = [] → T.take 2 ≠ ['/', '/'])
    (hQchar : ∀ c ∈ Q, c ≠ '#' ∧ isPySpace c = false) :
    normalizeUrlList true true true (pyUrlunsplit S N T Q []) =
      Except.ok (pyUrlunsplit S N T Q []) := by
  by_cases hauth : N ≠ [] ∨ (S ≠ [] ∧ usesNetloc.contains S = true ∧
      T.take 2 ≠ ['/', '/'])
  · obtain ⟨t, hform, hv⟩ := pyUrlunsplit_form_general S N T Q hS hT hauth
    have htchar := slashed_chars T t hform hTchar
    have hnosp : ∀ c ∈ S ++ ':' :: '/' :: '/' ::
        (N ++ '/' :: (t ++ (if Q = [] then [] else '?' :: Q))), isPySpace c = false :=
      nosp_append (nosp_scheme hSall) (nosp_cons (by decide) (nosp_cons (by decide)
        (nosp_cons (by decide) (nosp_append (fun c hc => (hNchar c hc).2)
          (nosp_cons (by decide) (nosp_append
            (fun c hc => (htchar c hc).2.2.2) (nosp_qp (fun c hc => (hQchar c hc).2))))))))
    rw [hv]
    unfold normalizeUrlList
    rw [pyStrip_eq_self _ hnosp]
    have hsplit := pyUrlsplit_authority S N t Q hS hShead hSall
      (fun c hc => (hNchar c hc).1) hNbr
      (fun c hc => ⟨(htchar c hc).1, (htchar c hc).2.1⟩)
      (fun c hc => (hQchar c hc).1) hnosp
    rw [hSlow] at hsplit
    have hsemi : (SplitParts.path ⟨S, N, '/' :: t, Q, []⟩).contains ';' = false := by
      apply contains_eq_false_of_forall
      intro c hc
      rcases List.mem_cons.mp hc with rfl | hc
      · decide
      · exact (htchar c hc).2.2.1
    have hparse := pyUrlparse_of_split _ _ hsplit hsemi
    dsimp only at hparse
    simp only [Bind.bind, Except.bind, hparse, pure, Except.pure]
    rw [normalizeParts_fixed ⟨S, N, '/' :: t, [], Q, []⟩ hS hShttp hNlow
      (by simp) (slashed_trail T t hT hform hTtrail) rfl rfl]
    have hunp : pyUrlunparse ⟨S, N, '/' :: t, [], Q, []⟩ =
        pyUrlunsplit S N ('/' :: t) Q [] := by
      unfold pyUrlunparse
      dsimp only
      rw [if_neg (show ¬(([] : List Char) ≠ []) by
        intro h
        exact h rfl)]
    rw [hunp]
    have hcond2 : N ≠ [] ∨ (S ≠ [] ∧ usesNetloc.contains S = true ∧
        ('/' :: t).take 2 ≠ ['/', '/']) := by
      rcases hauth with h | ⟨h1, h2, h3⟩
      · exact Or.inl h
      · exact Or.inr ⟨h1, h2, slashed_take2 T t hT hform h3⟩
    rw [pyUrlunsplit_authority_form S N t Q hS hcond2]
  · have hN : N = [] := by
      by_contra h
      exact hauth (Or.inl h)
    subst hN
    have hplaincond : ¬(S ≠ [] ∧ usesNetloc.contains S = true ∧
        T.take 2 ≠ ['/', '/']) := fun h => hauth (Or.inr h)
    have hv := pyUrlunsplit_plain_form S T Q hS hplaincond
    have hnosp : ∀ c ∈ S ++ ':' :: (T ++ (if Q = [] then [] else '?' :: Q)),
        isPySpace c = false :=
      nosp_append (nosp_scheme hSall) (nosp_cons (by decide) (nosp_append
        (fun c hc => (hTchar c hc).2.2.2) (nosp_qp (fun c hc => (hQchar c hc).2))))
    rw [hv]
    unfold normalizeUrlList
    rw [pyStrip_eq_self _ hnosp]
    have hsplit := pyUrlsplit_plain S T Q hS hShead hSall hT (hTT rfl)
      (fun c hc => ⟨(hTchar c hc).1, (hTchar c hc).2.1⟩)
      (fun c hc => (hQchar c hc).1) hnosp
    rw [hSlow] at hsplit
    have hsemi : (SplitParts.path ⟨S, [], T, Q, []⟩).contains ';' = false :=
      contains_eq_false_of_forall _ _ (fun c hc => (hTchar c hc).2.2.1)
    have hparse := pyUrlparse_of_split _ _ hsplit hsemi
    dsimp only at hparse
    simp only [Bind.bind, Except.bind, hparse, pure, Except.pure]
    rw [normalizeParts_fixed ⟨S, [], T, [], Q, []⟩ hS hShttp rfl hT hTtrail rfl rfl]
    have hunp : pyUrlunparse ⟨S, [], T, [], Q, []⟩ = pyUrlunsplit S [] T Q [] := by
      unfold pyUrlunparse
      dsimp only
      rw [if_neg (show ¬(([] : List Char) ≠ []) by
        intro h
        exact h rfl)]
    rw [hunp]
    rw [pyUrlunsplit_plain_form S T Q hS hplaincond]

/-! ### Inverting a successful urlsplit: component facts -/

theorem forall_ne_of_contains_eq_false {l : List Char} {x : Char}
    (h : l.contains x = false) : ∀ c ∈ l, c ≠ x := by
  intro c hc hcx
  subst hcx
  rw [← Bool.not_eq_true] at h
  exact h (List.elem_eq_true_of_mem hc)

theorem mem_of_mem_pyStrip {l : List Char} {c : Char} (h : c ∈ pyStrip l) : c ∈ l := by
  unfold pyStrip at h
  have h2 := List.mem_reverse.mp h
  have h3 := (List.dropWhile_sublist _).subset h2
  have h4 := List.mem_reverse.mp h3
  exact (List.dropWhile_sublist _).subset h4

theorem pyUrlsplit_inv (l : List Char) (s : SplitParts)
    (h : pyUrlsplit l = Except.ok s) :
    (s.scheme = [] ∨ (s.scheme ≠ [] ∧
      (∀ c0 rest, s.scheme = c0 :: rest → c0.isAlpha = true) ∧
      s.scheme.all isSchemeChar = true ∧ pyLower s.scheme = s.scheme)) ∧
    (∀ c ∈ s.scheme, ∃ d ∈ l, c = d.toLower) ∧
    (∀ c ∈ s.netloc, isNetlocDelim c = false ∧ c ∈ l) ∧
    ((s.netloc.contains '[' && !s.netloc.contains ']') ||
     (s.netloc.contains ']' && !s.netloc.contains '[')) = false ∧
    (∀ c ∈ s.path, c ≠ '#' ∧ c ≠ '?' ∧ c ∈ l) ∧
    (∀ c ∈ s.query, c ≠ '#' ∧ c ∈ l) := by
  unfold pyUrlsplit at h
  dsimp only at h
  -- the unsafe-byte filter is a sublist of l
  have hurl1 : ∀ c ∈ removeUnsafeBytes l, c ∈ l := fun c hc => List.mem_of_mem_filter hc
  rcases hss : splitScheme (removeUnsafeBytes l) with ⟨sch, url2⟩
  rw [hss] at h
  dsimp only at h
  -- facts about (sch, url2)
  have hssfacts := splitScheme_eq _ _ _ hss
  have hschfacts : (sch = [] ∨ (sch ≠ [] ∧
      (∀ c0 rest, sch = c0 :: rest → c0.isAlpha = true) ∧
      sch.all isSchemeChar = true ∧ pyLower sch = sch)) ∧
      (∀ c ∈ sch, ∃ d ∈ l, c = d.toLower) ∧ (∀ c ∈ url2, c ∈ l) := by
    rcases hssfacts with ⟨rfl, rfl⟩ | ⟨before, heq, hne, hhead, hall, rfl⟩
    · refine ⟨Or.inl rfl, by simp, hurl1⟩
    · constructor
      · refine Or.inr ⟨?_, ?_, ?_, pyLower_idem before⟩
        · intro hnil
          unfold pyLower at hnil
          rw [List.map_eq_nil_iff] at hnil
          exact hne hnil
        · intro c0 rest hc
          cases before with
          | nil => exact absurd rfl hne
          | cons b0 bs =>
            have hb0 := hhead b0 bs rfl
            unfold pyLower at hc
            rw [List.map_cons] at hc
            injection hc with hc0 _
            rw [← hc0]
            exact isAlpha_toLower hb0
        · rw [List.all_eq_true]
          intro c hc
          unfold pyLower at hc
          rw [List.mem_map] at hc
          obtain ⟨d, hd, rfl⟩ := hc
          exact isSchemeChar_toLower (List.all_eq_true.mp hall d hd)
      constructor
      · intro c hc
        unfold pyLower at hc
        rw [List.mem_map] at hc
        obtain ⟨d, hd, rfl⟩ := hc
        refine ⟨d, hurl1 d ?_, rfl⟩
        rw [heq]
        exact List.mem_append.mpr (Or.inl hd)
      · intro c hc
        apply hurl1
        rw [heq]
        exact List.mem_append.mpr (Or.inr (List.mem_cons_of_mem _ hc))
  obtain ⟨hsc, hscmem, hu2mem⟩ := hschfacts
  -- the netloc split
  rcases hnl : (if url2.take 2 = ['/', '/'] then
      ((url2.drop 2).takeWhile (fun c => !isNetlocDelim c),
       (url2.drop 2).dropWhile (fun c => !isNetlocDelim c))
    else ([], url2)) with ⟨netloc, url3⟩
  have hnlfacts : (∀ c ∈ netloc, isNetlocDelim c = false ∧ c ∈ l) ∧
      (∀ c ∈ url3, c ∈ l) := by
    by_cases h2 : url2.take 2 = ['/', '/']
    · rw [if_pos h2] at hnl
      injection hnl with hnl1 hnl2
      constructor
      · intro c hc
        rw [← hnl1] at hc
        refine ⟨by simpa using List.mem_takeWhile_imp hc, ?_⟩
        exact hu2mem c ((List.drop_subset _ _) ((List.takeWhile_sublist _).subset hc))
      · intro c hc
        rw [← hnl2] at hc
        exact hu2mem c ((List.drop_subset _ _) ((List.dropWhile_sublist _).subset hc))
    · rw [if_neg h2] at hnl
      injection hnl with hnl1 hnl2
      constructor
      · intro c hc
        rw [← hnl1] at hc
        simp at hc
      · intro c hc
        rw [← hnl2] at hc
        exact hu2mem c hc
  obtain ⟨hnlmem, hu3mem⟩ := hnlfacts
  rw [hnl] at h
  dsimp only at h
  -- the bracket test must have failed
  rcases hbr : ((netloc.contains '[' && !netloc.contains ']') ||
      (netloc.contains ']' && !netloc.contains '[')) with _ | _
  swap
  · rw [hbr] at h
    simp only [if_true] at h
    exact absurd h (by simp)
  rw [hbr] at h
  simp only [Bool.false_eq_true, if_false] at h
  -- fragment split
  rcases hfr : splitFirst (fun c => decide (c = '#')) url3 with _ | ⟨u4, frag⟩
  all_goals rw [hfr] at h
  all_goals dsimp only at h
  · -- no fragment: url4 = url3
    have hu4mem : ∀ c ∈ url3, c ≠ '#' ∧ c ∈ l := by
      intro c hc
      refine ⟨?_, hu3mem c hc⟩
      have := (splitFirst_eq_none_iff _ _).mp hfr c hc
      simpa using this
    rcases hq : splitFirst (fun c => decide (c = '?')) url3 with _ | ⟨u5, query⟩
    all_goals rw [hq] at h
    all_goals dsimp only at h
    · injection h with h2
      subst h2
      refine ⟨hsc, hscmem, hnlmem, hbr, ?_, ?_⟩
      · intro c hc
        have h4 := hu4mem c hc
        refine ⟨h4.1, ?_, h4.2⟩
        have := (splitFirst_eq_none_iff _ _).mp hq c hc
        simpa using this
      · intro c hc
        simp at hc
    · obtain ⟨x, hx1, hx2, hx3⟩ := splitFirst_eq_some _ _ _ _ hq
      have hxc : x = '?' := of_decide_eq_true hx2
      subst hxc
      injection h with h2
      subst h2
      refine ⟨hsc, hscmem, hnlmem, hbr, ?_, ?_⟩
      · intro c hc
        have hcm : c ∈ url3 := by
          rw [hx1]
          exact List.mem_append.mpr (Or.inl hc)
        refine ⟨(hu4mem c hcm).1, ?_, (hu4mem c hcm).2⟩
        have := hx3 c hc
        simpa using this
      · intro c hc
        have hcm : c ∈ url3 := by
          rw [hx1]
          exact List.mem_append.mpr (Or.inr (List.mem_cons_of_mem _ hc))
        exact ⟨(hu4mem c hcm).1, (hu4mem c hcm).2⟩
  · -- fragment split at the first '#'
    obtain ⟨x, hx1, hx2, hx3⟩ := splitFirst_eq_some _ _ _ _ hfr
    have hxc : x = '#' := of_decide_eq_true hx2
    subst hxc
    have hu4mem : ∀ c ∈ u4, c ≠ '#' ∧ c ∈ l := by
      intro c hc
      refine ⟨by simpa using hx3 c hc, ?_⟩
      apply hu3mem
      rw [hx1]
      exact List.mem_append.mpr (Or.inl hc)
    rcases hq : splitFirst (fun c => decide (c = '?')) u4 with _ | ⟨u5, query⟩
    all_goals rw [hq] at h
    all_goals dsimp only at h
    · injection h with h2
      subst h2
      refine ⟨hsc, hscmem, hnlmem, hbr, ?_, ?_⟩
      · intro c hc
        have h4 := hu4mem c hc
        refine ⟨h4.1, ?_, h4.2⟩
        have := (splitFirst_eq_none_iff _ _).mp hq c hc
        simpa using this
      · intro c hc
        simp at hc
    · obtain ⟨y, hy1, hy2, hy3⟩ := splitFirst_eq_some _ _ _ _ hq
      have hyc : y = '?' := of_decide_eq_true hy2
      subst hyc
      injection h with h2
      subst h2
      refine ⟨hsc, hscmem, hnlmem, hbr, ?_, ?_⟩
      · intro c hc
        have hcm : c ∈ u4 := by
          rw [hy1]
          exact List.mem_append.mpr (Or.inl hc)
        refine ⟨(hu4mem c hcm).1, ?_, (hu4mem c hcm).2⟩
        have := hy3 c hc
        simpa using this
      · intro c hc
        have hcm : c ∈ u4 := by
          rw [hy1]
          exact List.mem_append.mpr (Or.inr (List.mem_cons_of_mem _ hc))
        exact ⟨(hu4mem c hcm).1, (hu4mem c hcm).2⟩

theorem contains_pyLower {n : List Char} {x : Char}
    (hx : ¬(65 ≤ x.toNat ∧ x.toNat ≤ 90)) (hx2 : x.toNat < 97) :
    (pyLower n).contains x = n.contains x := by
  rcases hm : n.contains x with _ | _
  · rw [← Bool.not_eq_true]
    intro hc
    have h2 : x ∈ pyLower n := List.mem_of_elem_eq_true hc
    rw [mem_pyLower_low hx hx2] at h2
    rw [← Bool.not_eq_true] at hm
    exact hm (List.elem_eq_true_of_mem h2)
  · exact List.elem_eq_true_of_mem
      ((mem_pyLower_low hx hx2).mpr (List.mem_of_elem_eq_true hm))

theorem pyLower_brackets (n : List Char) :
    (((pyLower n).contains '[' && !(pyLower n).contains ']') ||
     ((pyLower n).contains ']' && !(pyLower n).contains '[')) =
    ((n.contains '[' && !n.contains ']') ||
     (n.contains ']' && !n.contains '[')) := by
  rw [contains_pyLower (by decide) (by decide),
    contains_pyLower (by decide) (by decide)]

/-! ### The normalized components -/

theorem norm_scheme_cases (S0 : List Char) :
    (if (true = true) ∧ ((if S0 = [] then "https".data else S0) = "http".data ∨
        (if S0 = [] then "https".data else S0) = "https".data) then "https".data
      else (if S0 = [] then "https".data else S0)) = "https".data ∨
    ((if (true = true) ∧ ((if S0 = [] then "https".data else S0) = "http".data ∨
        (if S0 = [] then "https".data else S0) = "https".data) then "https".data
      else (if S0 = [] then "https".data else S0)) = S0 ∧ S0 ≠ [] ∧
      S0 ≠ "http".data ∧ S0 ≠ "https".data) := by
  by_cases h0 : S0 = []
  · left
    rw [if_pos (by rw [if_pos h0]; exact ⟨rfl, Or.inr rfl⟩)]
  · rw [if_neg h0]
    by_cases h1 : S0 = "http".data ∨ S0 = "https".data
    · left
      rw [if_pos ⟨rfl, h1⟩]
    · right
      push_neg at h1
      rw [if_neg (by
        rintro ⟨_, h | h⟩
        · exact h1.1 h
        · exact h1.2 h)]
      exact ⟨rfl, h0, h1.1, h1.2⟩

theorem norm_path_facts (p0 : List Char) (hp0 : p0 ≠ [])
    (hall : (!(decide (p0 = ['/'])) && p0.all (fun c => decide (c = '/'))) = false) :
    (if (true = true) ∧ ¬p0 = ['/'] ∧ p0.getLast? = some '/' then
        rstripSlashes p0 else p0) ≠ [] ∧
    ((if (true = true) ∧ ¬p0 = ['/'] ∧ p0.getLast? = some '/' then
        rstripSlashes p0 else p0) = ['/'] ∨
      (if (true = true) ∧ ¬p0 = ['/'] ∧ p0.getLast? = some '/' then
        rstripSlashes p0 else p0).getLast? ≠ some '/') ∧
    (if (true = true) ∧ ¬p0 = ['/'] ∧ p0.getLast? = some '/' then
        rstripSlashes p0 else p0) <+: p0 := by
  by_cases hc : (true = true) ∧ ¬p0 = ['/'] ∧ p0.getLast? = some '/'
  · rw [if_pos hc]
    obtain ⟨-, hne, hlast⟩ := hc
    have hnotall : ¬(∀ c ∈ p0, c = '/') := by
      intro h
      have h1 : p0.all (fun c => decide (c = '/')) = true :=
        List.all_eq_true.mpr (fun c hc2 => decide_eq_true (h c hc2))
      rw [h1, Bool.and_true] at hall
      simp only [Bool.not_eq_false', decide_eq_true_eq] at hall
      exact hne hall
    have hnil : rstripSlashes p0 ≠ [] := by
      intro h
      exact hnotall ((rstripSlashes_eq_nil_iff p0).mp h)
    exact ⟨hnil, Or.inr (rstripSlashes_getLast_ne p0 hnil), rstripSlashes_prefix p0⟩
  · rw [if_neg hc]
    refine ⟨hp0, ?_, List.prefix_refl p0⟩
    by_cases h1 : p0 = ['/']
    · exact Or.inl h1
    · right
      intro h2
      exact hc ⟨rfl, h1, h2⟩

/-- C10 (amended): with the default flag setting, normalization is
idempotent on every ASCII input without whitespace or semicolons whose
parsed path is not a run of two or more slashes only and whose parse does
not pair an empty authority with a path starting in two slashes: if
normalize_url u = ok v then normalize_url v = ok v. -/
theorem normalize_url_idempotent_amended (u v : String)
    (hascii : isAsciiStr u = true)
    (hnospace : hasNoPySpace u = true)
    (hsemi : u.data.contains ';' = false)
    (hpath : pathNotAllSlash u = true)
    (hconf : noAuthorityPathConfusion u = true)
    (hnorm : normalize_url u = Except.ok v) :
    normalize_url v = Except.ok v := by
  unfold normalize_url normalizeUrlList at hnorm
  cases hs : pyUrlsplit (pyStrip u.data) with
  | error e =>
    exfalso
    unfold pyUrlparse at hnorm
    simp only [Bind.bind, Except.bind, hs, Except.map] at hnorm
    exact Except.noConfusion hnorm
  | ok s =>
  obtain ⟨S0, N0, T0, Q0, F0⟩ := s
  obtain ⟨hsc, hscmem, hnlmem, hbr, hpathmem, hqmem⟩ := pyUrlsplit_inv _ _ hs
  dsimp only at hsc hscmem hnlmem hbr hpathmem hqmem
  have hnosp' : ∀ c ∈ u.data, isPySpace c = false := by
    intro c hc
    have h2 := List.all_eq_true.mp hnospace c hc
    simpa using h2
  have hsemi' : (SplitParts.path ⟨S0, N0, T0, Q0, F0⟩).contains ';' = false := by
    apply contains_eq_false_of_forall
    intro c hc
    dsimp only at hc
    exact forall_ne_of_contains_eq_false hsemi c (mem_of_mem_pyStrip (hpathmem c hc).2.2)
  have hparse := pyUrlparse_of_split _ _ hs hsemi'
  dsimp only at hparse
  simp only [Bind.bind, Except.bind, hparse, pure, Except.pure, Except.map] at hnorm
  injection hnorm with hv
  -- rewrite the two path/authority hypotheses through the parse
  unfold pathNotAllSlash at hpath
  rw [hparse] at hpath
  dsimp only at hpath
  rw [Bool.not_eq_true'] at hpath
  unfold noAuthorityPathConfusion at hconf
  rw [hparse] at hconf
  dsimp only at hconf
  rw [Bool.not_eq_true'] at hconf
  -- the normalized components
  have hnp : normalizeParts true true true ⟨S0, N0, T0, [], Q0, F0⟩ =
      ⟨(if (true = true) ∧ ((if S0 = [] then "https".data else S0) = "http".data ∨
          (if S0 = [] then "https".data else S0) = "https".data) then "https".data
        else (if S0 = [] then "https".data else S0)),
       pyLower N0,
       (if (true = true) ∧ ¬(if T0 = [] then ['/'] else T0) = ['/'] ∧
          (if T0 = [] then ['/'] else T0).getLast? = some '/' then
          rstripSlashes (if T0 = [] then ['/'] else T0)
        else (if T0 = [] then ['/'] else T0)),
       [], Q0, []⟩ := rfl
  rw [hnp] at hv
  -- name the scheme and path
  set Sx := (if (true = true) ∧ ((if S0 = [] then "https".data else S0) = "http".data ∨
      (if S0 = [] then "https".data else S0) = "https".data) then "https".data
    else (if S0 = [] then "https".data else S0)) with hSx
  set p0 := (if T0 = [] then ['/'] else T0) with hp0def
  set Tx := (if (true = true) ∧ ¬p0 = ['/'] ∧ p0.getLast? = some '/' then
      rstripSlashes p0 else p0) with hTx
  -- facts about p0
  have hp0ne : p0 ≠ [] := by
    rw [hp0def]
    by_cases h : T0 = []
    · rw [if_pos h]
      simp
    · rw [if_neg h]
      exact h
  have hp0mem : ∀ c ∈ p0, c = '/' ∨ c ∈ T0 := by
    intro c hc
    rw [hp0def] at hc
    by_cases h : T0 = []
    · rw [if_pos h] at hc
      left
      simpa using hc
    · right
      rwa [if_neg h] at hc
  obtain ⟨hTne, hTtrail, hTpre⟩ := norm_path_facts p0 hp0ne hpath
  have hTmem : ∀ c ∈ Tx, c = '/' ∨ c ∈ T0 := fun c hc => hp0mem c (hTpre.subset hc)
  -- facts about Sx
  have hSfacts : Sx ≠ [] ∧ (∀ c0 rest, Sx = c0 :: rest → c0.isAlpha = true) ∧
      Sx.all isSchemeChar = true ∧ pyLower Sx = Sx ∧ Sx ≠ "http".data := by
    rcases norm_scheme_cases S0 with h | ⟨h, hne, hh1, hh2⟩
    · rw [← hSx] at h
      rw [h]
      refine ⟨by decide, ?_, by decide, by decide, by decide⟩
      intro c0 rest hcc
      injection hcc with h1 _
      rw [← h1]
      decide
    · rw [← hSx] at h
      rw [h]
      rcases hsc with h0 | ⟨_, hhead, hall, hlow⟩
      · exact absurd h0 hne
      · exact ⟨hne, hhead, hall, hlow, hh1⟩
  -- apply the stability theorem
  have hunp : pyUrlunparse ⟨Sx, pyLower N0, Tx, [], Q0, []⟩ =
      pyUrlunsplit Sx (pyLower N0) Tx Q0 [] := by
    unfold pyUrlunparse
    dsimp only
    rw [if_neg (show ¬(([] : List Char) ≠ []) by
      intro h
      exact h rfl)]
  rw [hunp] at hv
  subst hv
  unfold normalize_url
  have hfix : normalizeUrlList true true true
      (pyUrlunsplit Sx (pyLower N0) Tx Q0 []) =
      Except.ok (pyUrlunsplit Sx (pyLower N0) Tx Q0 []) := by
    apply rebuilt_normalize_fixed Sx (pyLower N0) Tx Q0 hSfacts.1 hSfacts.2.1
      hSfacts.2.2.1 hSfacts.2.2.2.1 hSfacts.2.2.2.2
    · intro c hc
      constructor
      · exact pyLower_pred (fun d => isNetlocDelim_toLower d)
          (fun d hd => (hnlmem d hd).1) c hc
      · exact pyLower_pred (fun d => isPySpace_toLower d)
          (fun d hd => hnosp' d (mem_of_mem_pyStrip (hnlmem d hd).2)) c hc
    · exact pyLower_idem N0
    · rw [pyLower_brackets]
      exact hbr
    · exact hTne
    · intro c hc
      rcases hTmem c hc with rfl | hmem
      · exact ⟨by decide, by decide, by decide, by decide⟩
      · refine ⟨(hpathmem c hmem).1, (hpathmem c hmem).2.1, ?_, ?_⟩
        · exact forall_ne_of_contains_eq_false hsemi c
            (mem_of_mem_pyStrip (hpathmem c hmem).2.2)
        · exact hnosp' c (mem_of_mem_pyStrip (hpathmem c hmem).2.2)
    · exact hTtrail
    · intro hNnil
      have hN0 : N0 = [] := by
        unfold pyLower at hNnil
        exact List.map_eq_nil_iff.mp hNnil
      have hT0take : T0.take 2 ≠ ['/', '/'] := by
        intro h2
        rw [hN0, h2] at hconf
        simp at hconf
      apply take2_of_prefix hTpre
      rw [hp0def]
      by_cases h : T0 = []
      · rw [if_pos h]
        simp
      · rw [if_neg h]
        exact hT0take
    · intro c hc
      refine ⟨(hqmem c hc).1, ?_⟩
      exact hnosp' c (mem_of_mem_pyStrip (hqmem c hc).2)
  rw [show (String.mk (pyUrlunsplit Sx (pyLower N0) Tx Q0 [])).data =
    pyUrlunsplit Sx (pyLower N0) Tx Q0 [] from rfl]
  rw [hfix]
  rfl

/-- Counterexample to C10: with the default flags,
normalize("https://h//") = "https://h" but normalize("https://h") =
"https://h/", so normalize (normalize u) differs from normalize u. -/
theorem normalize_url_not_idempotent :
    normalize_url "https://h//" = Except.ok "https://h" ∧
    normalize_url "https://h" = Except.ok "https://h/" ∧
    ("https://h/" : String) ≠ "https://h" := ⟨rfl, rfl, by decide⟩

/-- Witness for C10: the amended theorem applied at a concrete input with
every hypothesis discharged by evaluation. -/
theorem normalize_url_idempotent_amended_witness :
    (isAsciiStr "https://A.com/x/" = true ∧
     hasNoPySpace "https://A.com/x/" = true ∧
     ("https://A.com/x/").data.contains ';' = false ∧
     pathNotAllSlash "https://A.com/x/" = true ∧
     noAuthorityPathConfusion "https://A.com/x/" = true) ∧
    normalize_url "https://A.com/x/" = Except.ok "https://a.com/x" ∧
    normalize_url "https://a.com/x" = Except.ok "https://a.com/x" :=
  ⟨⟨by decide, by decide, by decide, by decide, by decide⟩, rfl,
   normalize_url_idempotent_amended "https://A.com/x/" "https://a.com/x"
     (by decide) (by decide) (by decide) (by decide) (by decide) rfl⟩


/-- Counterexample to C9: on the input "http://[" the normalizer raises
(urlsplit's "Invalid IPv6 URL" ValueError propagates out of normalize_url),
so normalize_url is not total on arbitrary strings.  CPython 3.11 also
raises on balanced brackets whose content is not a valid IPv6/IPvFuture
address, e.g. "http://[abc]" (_check_bracketed_host); that further error
path lies outside this model and outside the amended claim below. -/
theorem normalize_url_raises_on_unbalanced_bracket :
    normalize_url "http://[" = Except.error () := by rfl

/-- C9 (amended): the URL normalizer performs no network I/O and has no
side effects, and it is total on every ASCII input string whose would-be
netloc contains no square bracket: for every such input (including
otherwise malformed URLs) and every flag setting it returns a best-effort
canonical string and never raises.  Under the bracket-free hypothesis
neither of CPython 3.11's bracket checks (the unmatched-bracket ValueError
and the _check_bracketed_host validation) can fire, so the embedding is
exact there; on bracketed netlocs the source can raise (see the
counterexample). -/
theorem normalize_url_total_without_brackets :
    ∀ (u : String) (preferHttps dropFragment stripSlash : Bool),
      isAsciiStr u = true → noBracketsInNetloc u = true →
      ∃ v, normalize_url u preferHttps dropFragment stripSlash = Except.ok v := by
  intro u ph df ss _ hnb
  simp only [noBracketsInNetloc, Bool.and_eq_true, Bool.not_eq_true'] at hnb
  obtain ⟨sp, hsp⟩ : ∃ sp, pyUrlsplit (pyStrip u.data) = Except.ok sp := by
    unfold pyUrlsplit
    dsimp only
    rw [hnb.1, hnb.2]
    simp only [Bool.false_and, Bool.and_false, Bool.or_self, Bool.false_eq_true, if_false]
    exact ⟨_, rfl⟩
  unfold normalize_url normalizeUrlList pyUrlparse
  simp only [Bind.bind, Except.bind, hsp]
  rcases hc : usesParams.contains sp.scheme && sp.path.contains ';' with _ | _
  · exact ⟨_, rfl⟩
  · exact ⟨_, rfl⟩

/-- Witness for C9: the amended theorem applied at a concrete input. -/
theorem normalize_url_total_without_brackets_witness :
    isAsciiStr "https://example.com/path" = true ∧
    noBracketsInNetloc "https://example.com/path" = true ∧
    ∃ v, normalize_url "https://example.com/path" true true true = Except.ok v :=
  ⟨by decide, by decide,
   normalize_url_total_without_brackets "https://example.com/path" true true true
     (by decide) (by decide)⟩

end LlmsGen
